import Mathlib

/-!
A shallow embedding of the `gatecrasher` compiler (`src/compiler.py`) and
simulator console (`src/console.py`).

The restricted source language is Python function definitions whose bodies
contain only assignments, bare expressions and (after rewriting) returns.
Values are Python ints, bools, `None` and tuples.  The embedding below
mirrors, definition by definition:

* `StateTracker` (`visit_FunctionDef` / `visit_Name` / `visit_Call`)
  as `collectExpr` / `collectStmt` / `track_FunctionDef` / `track_Program`;
* `graphlib.TopologicalSorter.static_order` (a standard-library
  collaborator: callees before callers, `CycleError` when a cycle exists)
  as `staticOrder`, a Kahn-style computation;
* `StateTracker.analyze` as `analyze`;
* `RewriteDeclarations` (`_unpack_state`, `_pack_state`,
  `_stateful_return`, `visit_Assign`, `visit_FunctionDef`) as
  `unpack_state`, `pack_state`, `stateful_return`, `visit_Assign`,
  `rw_FunctionDef`;
* `parse_script` as `parse_script`;
* the Python evaluation of the (rewritten) definitions as the fuelled
  interpreter `evalCall` (module-level name resolution, positional
  arguments with trailing defaults, tuple packing/unpacking, Python
  truthiness and `==`);
* `CircuitConsole` (`runsource`, `_trigger_circuit`) as `runsource` and
  `trigger_circuit`, with printed lines and circuit invocations surfaced
  as explicit observables (`Out`, the row list and the invocation count).
-/

/-- Python runtime values used by the compiled programs. -/
inductive Value where
  | int (n : Int)
  | bool (b : Bool)
  | none
  | tuple (vs : List Value)
deriving Repr

/-- Numeric view: Python treats `bool` as the ints `0` / `1`. -/
def Value.toNumOpt : Value → Option Int
  | .int n => some n
  | .bool b => some (if b then 1 else 0)
  | _ => Option.none

/-- Python truthiness of a value. -/
def truthy : Value → Bool
  | .int n => decide (n ≠ 0)
  | .bool b => b
  | .none => false
  | .tuple vs => !vs.isEmpty

mutual
/-- Python `==` on the values above (`True == 1`, tuples elementwise). -/
def pyEq : Value → Value → Bool
  | .tuple a, .tuple b => pyEqs a b
  | .none, .none => true
  | .none, _ => false
  | _, .none => false
  | .tuple _, _ => false
  | _, .tuple _ => false
  | a, b =>
    match a.toNumOpt, b.toNumOpt with
    | some x, some y => decide (x = y)
    | _, _ => false

def pyEqs : List Value → List Value → Bool
  | [], [] => true
  | a :: as, b :: bs => pyEq a b && pyEqs as bs
  | _, _ => false
end

/-- Assignment targets (`ast.Name` / `ast.Tuple` in store context). -/
inductive Tgt where
  | name (id : String)
  | tup (ts : List Tgt)
deriving Repr

/-- Expressions of the restricted language (`ast` nodes in load context).
`call` keeps the callee as a plain name, exactly as the compiler reads
`node.func.id`.  `ifExp test body orelse` is Python `body if test else
orelse` (generated by `_unpack_state`). -/
inductive Expr where
  | name (id : String)
  | const (v : Value)
  | tuple (elts : List Expr)
  | call (f : String) (args : List Expr)
  | unaryNot (e : Expr)
  | boolAnd (l r : Expr)
  | binSub (l r : Expr)
  | ifExp (test body orelse : Expr)
deriving Repr

/-- Statements: assignment, bare expression, and `return` (the latter is
only produced by the rewriter). -/
inductive Stmt where
  | assign (target : Tgt) (value : Expr)
  | exprStmt (e : Expr)
  | ret (value : Expr)
deriving Repr

/-- An `ast.FunctionDef`: name, positional parameters, their trailing
defaults, the return annotation (deleted by the rewriter) and the body. -/
structure FunctionDef where
  name : String
  args : List String
  defaults : List Expr
  returns : Option Expr
  body : List Stmt
deriving Repr

/-- Compile-time and runtime errors of the embedded Python. -/
inductive CErr where
  | cycleError
  | keyError
  | rewriteError
deriving Repr, DecidableEq

inductive PyErr where
  | typeError
  | nameError
  | valueError
  | fuelOut
  | unsupported
deriving Repr, DecidableEq

/-! ### Generic association lists (Python `dict` with string keys) -/

def alookup {α : Type} : List (String × α) → String → Option α
  | [], _ => Option.none
  | (k, v) :: t, n => if k = n then some v else alookup t n

def aset {α : Type} : List (String × α) → String → α → List (String × α)
  | [], n, v => [(n, v)]
  | (k, w) :: t, n, v => if k = n then (k, v) :: t else (k, w) :: aset t n v

def elemStr (s : String) : List String → Bool
  | [] => false
  | t :: ts => if t = s then true else elemStr s ts

/-- Position of the first occurrence of `s` (length of the list if absent). -/
def idx : List String → String → Nat
  | [], _ => 0
  | a :: l, s => if a = s then 0 else idx l s + 1

/-! ### StateTracker: collection of state variables and call sites

`visit_Name` records every name read outside the formal parameters;
`visit_Call` records the callee and traverses only the call arguments
(never the callee name itself); other nodes are traversed generically.
Assignment targets are store-context names and contribute nothing. -/

mutual
/-- Returns `(reads, deps)`: names read that are not parameters (with
duplicates, in traversal order) and callee names in encounter order
(pre-order, callee before its arguments). -/
def collectExpr (args : List String) : Expr → List String × List String
  | .name id => (if id ∈ args then [] else [id], [])
  | .const _ => ([], [])
  | .tuple es => collectExprs args es
  | .call f es =>
    let (vs, ds) := collectExprs args es
    (vs, f :: ds)
  | .unaryNot e => collectExpr args e
  | .boolAnd l r =>
    let (v1, d1) := collectExpr args l
    let (v2, d2) := collectExpr args r
    (v1 ++ v2, d1 ++ d2)
  | .binSub l r =>
    let (v1, d1) := collectExpr args l
    let (v2, d2) := collectExpr args r
    (v1 ++ v2, d1 ++ d2)
  | .ifExp t b o =>
    let (v1, d1) := collectExpr args t
    let (v2, d2) := collectExpr args b
    let (v3, d3) := collectExpr args o
    (v1 ++ v2 ++ v3, d1 ++ d2 ++ d3)

def collectExprs (args : List String) : List Expr → List String × List String
  | [] => ([], [])
  | e :: es =>
    let (v1, d1) := collectExpr args e
    let (v2, d2) := collectExprs args es
    (v1 ++ v2, d1 ++ d2)
end

def collectStmt (args : List String) : Stmt → List String × List String
  | .assign _ e => collectExpr args e
  | .exprStmt e => collectExpr args e
  | .ret e => collectExpr args e

def collectStmts (args : List String) : List Stmt → List String × List String
  | [] => ([], [])
  | s :: ss =>
    let (v1, d1) := collectStmt args s
    let (v2, d2) := collectStmts args ss
    (v1 ++ v2, d1 ++ d2)

/-- The `.id` of a name node (the tracker assumes the return annotation is
a name or a tuple of names; other shapes would fail in Python). -/
def Expr.nameId : Expr → String
  | .name s => s
  | _ => ""

/-- Output names from the return annotation (`visit_FunctionDef`). -/
def returnNamesOf : Option Expr → List String
  | some (.tuple es) => es.map Expr.nameId
  | some e => [e.nameId]
  | Option.none => []

/-! ### Sorting (Python `sorted` on strings, by code points) -/

def strLtb : List Char → List Char → Bool
  | [], [] => false
  | [], _ :: _ => true
  | _ :: _, [] => false
  | a :: as, b :: bs =>
    if a.toNat < b.toNat then true
    else if b.toNat < a.toNat then false
    else strLtb as bs

def strLt (a b : String) : Bool := strLtb a.data b.data

def insStr (s : String) : List String → List String
  | [] => [s]
  | t :: ts => if strLt s t then s :: t :: ts else t :: insStr s ts

def sortStrs (l : List String) : List String := l.foldr insStr []

/-- Keep the first occurrence of each string (set of reads). -/
def dedupStr : List String → List String
  | [] => []
  | s :: t => if elemStr s t then dedupStr t else s :: dedupStr t

/-! ### Per-definition analysis record (`self.parts[name]`) -/

structure PartInfo where
  args : List String
  state : List String
  deps : List String
  dep_state : List String
  returns : List String
  stateful : Bool
deriving Repr, DecidableEq

abbrev Parts := List (String × PartInfo)

/-- `StateTracker.visit_FunctionDef`: collect reads and call sites over
the body and record the part (state variables sorted, `stateful` iff the
set of reads is nonempty). -/
def track_FunctionDef (fd : FunctionDef) : PartInfo :=
  let (vs, ds) := collectStmts fd.args fd.body
  { args := fd.args
    state := sortStrs (dedupStr vs)
    deps := ds
    dep_state := []
    returns := returnNamesOf fd.returns
    stateful := !vs.isEmpty }

def track_Program (prog : List FunctionDef) : Parts :=
  prog.foldl (fun ps fd => aset ps fd.name (track_FunctionDef fd)) []

/-- Edges `caller → callee`, one per call site (`self.graph.add`). -/
def edgesOf (prog : List FunctionDef) : List (String × String) :=
  prog.foldl
    (fun es fd => es ++ (collectStmts fd.args fd.body).2.map (fun d => (fd.name, d))) []

/-! ### `graphlib.TopologicalSorter.static_order`

Modelled from the documented contract of this standard-library
collaborator: iterate the nodes so that every predecessor (callee)
precedes its dependents (callers); raise `CycleError` when no such order
exists.  Implemented as Kahn's algorithm. -/

def addNode (n : String) (l : List String) : List String :=
  if n ∈ l then l else l ++ [n]

def nodesOf (edges : List (String × String)) : List String :=
  edges.foldl (fun ns e => addNode e.2 (addNode e.1 ns)) []

def predsOf (edges : List (String × String)) (n : String) : List String :=
  edges.foldr (fun e acc => if e.1 = n then e.2 :: acc else acc) []

def kahnGo (edges : List (String × String)) :
    Nat → List String → List String → Except CErr (List String)
  | fuel, done, rem =>
    match rem with
    | [] => .ok done
    | r :: rs =>
      match fuel with
      | 0 => .error .cycleError
      | fuel + 1 =>
        let ready := (r :: rs).filter (fun x => (predsOf edges x).all (fun d => elemStr d done))
        if ready.isEmpty then .error .cycleError
        else kahnGo edges fuel (done ++ ready) ((r :: rs).filter (fun x => !elemStr x ready))

def staticOrder (edges : List (String × String)) : Except CErr (List String) :=
  kahnGo edges (nodesOf edges).length [] (nodesOf edges)

/-! ### `StateTracker.analyze` -/

/-- `f"_{dep_name}_{n}"`. -/
def slotName (dep : String) (n : Nat) : String :=
  "_" ++ dep ++ "_" ++ Nat.repr n

/-- One pass of the inner loop of `analyze`: walk the dependency list and
allocate one fresh slot (advancing the global counter) for each call site
whose callee is currently marked stateful.  `KeyError` if a callee has no
part. -/
def allocSlots (ps : Parts) : List String → Nat → Except CErr (List String × Nat)
  | [], n => .ok ([], n)
  | d :: rest, n =>
    match alookup ps d with
    | Option.none => .error .keyError
    | some dp =>
      if dp.stateful then
        match allocSlots ps rest (n + 1) with
        | .error e => .error e
        | .ok (slots, n') => .ok (slotName d n :: slots, n')
      else allocSlots ps rest n

def analyzeStep (ps : Parts) (nm : String) (n : Nat) : Except CErr (Parts × Nat) :=
  match alookup ps nm with
  | Option.none => .error .keyError
  | some p =>
    match allocSlots ps p.deps n with
    | .error e => .error e
    | .ok (slots, n') =>
      let p' : PartInfo :=
        { p with
          dep_state := slots
          stateful := if !p.state.isEmpty || !slots.isEmpty then true else p.stateful }
      .ok (aset ps nm p', n')

def analyzeGo : Parts → List String → Nat → Except CErr Parts
  | ps, [], _ => .ok ps
  | ps, nm :: rest, n =>
    match analyzeStep ps nm n with
    | .error e => .error e
    | .ok (ps', n') => analyzeGo ps' rest n'

def analyze (ps : Parts) (order : List String) : Except CErr Parts :=
  analyzeGo ps order 0

/-! ### `RewriteDeclarations` -/

def mkTgtList : List String → Tgt
  | [n] => .name n
  | ns => .tup (ns.map .name)

def mkNamesExpr : List String → Expr
  | [n] => .name n
  | ns => .tuple (ns.map .name)

def defaultsExprU (vars parts : List String) : Expr :=
  match vars.map (fun _ => Expr.const (.int 0)) ++ parts.map (fun _ => Expr.const .none) with
  | [d] => d
  | ds => .tuple ds

/-- `_unpack_state`: `v1, ..., vk = state if state else (defaults)`. -/
def unpack_state (vars parts : List String) : Stmt :=
  .assign (mkTgtList (vars ++ parts))
    (.ifExp (.name "state") (.name "state") (defaultsExprU vars parts))

/-- `_pack_state`: `state = (v1, ..., vk)`. -/
def pack_state (vars parts : List String) : Stmt :=
  .assign (.name "state") (mkNamesExpr (vars ++ parts))

/-- `_stateful_return`: `return (r1, ..., rk), state`. -/
def stateful_return (returns : List String) : Stmt :=
  .ret (.tuple [mkNamesExpr returns, .name "state"])

/-- `RewriteDeclarations.visit_Assign`: a statement assigning directly
from a call whose callee has a nonempty own-state set pops the next slot,
extends the target to a pair and appends the slot as a trailing argument;
everything else is untouched.  Popping an empty slot list is Python's
`IndexError`. -/
def visit_Assign (parts : Parts) (calls : List String) :
    Stmt → Except CErr (Stmt × List String)
  | .assign tgt (.call f argsE) =>
    match alookup parts f with
    | Option.none => .error .keyError
    | some fp =>
      if !fp.state.isEmpty then
        match calls with
        | [] => .error .rewriteError
        | ps :: rest =>
          .ok (.assign (.tup [tgt, .name ps]) (.call f (argsE ++ [.name ps])), rest)
      else .ok (.assign tgt (.call f argsE), calls)
  | s => .ok (s, calls)

def rw_Body (parts : Parts) : List Stmt → List String → Except CErr (List Stmt × List String)
  | [], calls => .ok ([], calls)
  | s :: ss, calls =>
    match visit_Assign parts calls s with
    | .error e => .error e
    | .ok (s', calls') =>
      match rw_Body parts ss calls' with
      | .error e => .error e
      | .ok (ss', calls'') => .ok (s' :: ss', calls'')

/-- `RewriteDeclarations.visit_FunctionDef`: rewrite the body's call
sites, then, for a stateful definition, add the trailing `state=None`
parameter and wrap the body in unpack/pack; finally delete the return
annotation and append the return statement. -/
def rw_FunctionDef (parts : Parts) (fd : FunctionDef) : Except CErr FunctionDef :=
  match alookup parts fd.name with
  | Option.none => .error .keyError
  | some p =>
    match rw_Body parts fd.body p.dep_state with
    | .error e => .error e
    | .ok (body', _) =>
      let fd1 : FunctionDef :=
        if p.stateful then
          { fd with
            args := fd.args ++ ["state"]
            defaults := fd.defaults ++ [.const .none]
            body := [unpack_state p.state p.dep_state] ++ body' ++
              [pack_state p.state p.dep_state] }
        else { fd with body := body' }
      match fd1.returns with
      | Option.none => .ok fd1
      | some rv =>
        let retStmt := if p.stateful then stateful_return p.returns else Stmt.ret rv
        .ok { fd1 with returns := Option.none, body := fd1.body ++ [retStmt] }

/-- `parse_script`: track, order, analyze, rewrite. -/
def parse_script (prog : List FunctionDef) :
    Except CErr (List FunctionDef × Parts) :=
  match staticOrder (edgesOf prog) with
  | .error e => .error e
  | .ok order =>
    match analyze (track_Program prog) order with
    | .error e => .error e
    | .ok parts =>
      match prog.mapM (rw_FunctionDef parts) with
      | .error e => .error e
      | .ok prog' => .ok (prog', parts)

/-! ### Evaluation of the compiled module

Functions live in one module namespace (`exec_tree` executes all the
rewritten definitions into a single globals dict); a call resolves the
callee there at invocation time.  The interpreter is fuelled: one unit of
fuel per function invocation. -/

abbrev Env := List (String × Value)

abbrev Registry := List (String × FunctionDef)

mutual
/-- Assign a value to a target: a name binds it, a tuple target unpacks a
tuple value of matching length (otherwise `TypeError` / `ValueError`, as
Python). -/
def bindTgt : Env → Tgt → Value → Except PyErr Env
  | env, .name n, v => .ok (aset env n v)
  | env, .tup ts, .tuple vs => bindTgts env ts vs
  | _, .tup _, _ => .error .typeError

def bindTgts : Env → List Tgt → List Value → Except PyErr Env
  | env, [], [] => .ok env
  | env, t :: ts, v :: vs =>
    match bindTgt env t v with
    | .error e => .error e
    | .ok env' => bindTgts env' ts vs
  | _, _, _ => .error .valueError
end

mutual
/-- Expression evaluation, parameterised by the function-call oracle.
`boolAnd` and `ifExp` are short-circuiting, `unaryNot` yields a bool,
`binSub` is integer subtraction (bools count as 0/1), all as in Python. -/
def evalExpr (call : String → List Value → Except PyErr Value) (env : Env) :
    Expr → Except PyErr Value
  | .name n =>
    match alookup env n with
    | some v => .ok v
    | Option.none => .error .nameError
  | .const v => .ok v
  | .tuple es =>
    match evalExprs call env es with
    | .error e => .error e
    | .ok vs => .ok (.tuple vs)
  | .call f es =>
    match evalExprs call env es with
    | .error e => .error e
    | .ok vs => call f vs
  | .unaryNot e =>
    match evalExpr call env e with
    | .error e => .error e
    | .ok v => .ok (.bool (!truthy v))
  | .boolAnd l r =>
    match evalExpr call env l with
    | .error e => .error e
    | .ok v => if truthy v then evalExpr call env r else .ok v
  | .binSub l r =>
    match evalExpr call env l with
    | .error e => .error e
    | .ok a =>
      match evalExpr call env r with
      | .error e => .error e
      | .ok b =>
        match a.toNumOpt, b.toNumOpt with
        | some x, some y => .ok (.int (x - y))
        | _, _ => .error .typeError

  | .ifExp t b o =>
    match evalExpr call env t with
    | .error e => .error e
    | .ok v => if truthy v then evalExpr call env b else evalExpr call env o

def evalExprs (call : String → List Value → Except PyErr Value) (env : Env) :
    List Expr → Except PyErr (List Value)
  | [] => .ok []
  | e :: es =>
    match evalExpr call env e with
    | .error er => .error er
    | .ok v =>
      match evalExprs call env es with
      | .error er => .error er
      | .ok vs => .ok (v :: vs)
end

def execStmt (call : String → List Value → Except PyErr Value) (env : Env) :
    Stmt → Except PyErr (Env × Option Value)
  | .assign t e =>
    match evalExpr call env e with
    | .error er => .error er
    | .ok v =>
      match bindTgt env t v with
      | .error er => .error er
      | .ok env' => .ok (env', Option.none)
  | .exprStmt e =>
    match evalExpr call env e with
    | .error er => .error er
    | .ok _ => .ok (env, Option.none)
  | .ret e =>
    match evalExpr call env e with
    | .error er => .error er
    | .ok v => .ok (env, some v)

/-- Execute statements in order; a `return` stops execution. -/
def execStmts (call : String → List Value → Except PyErr Value) :
    Env → List Stmt → Except PyErr (Env × Option Value)
  | env, [] => .ok (env, Option.none)
  | env, s :: ss =>
    match execStmt call env s with
    | .error er => .error er
    | .ok (env', some v) => .ok (env', some v)
    | .ok (env', Option.none) => execStmts call env' ss

def constVal : Expr → Except PyErr Value
  | .const v => .ok v
  | _ => .error .unsupported

/-- Bind positional arguments against the parameter list with trailing
defaults: `TypeError` when too many or too few arguments are supplied. -/
def bindParams (ps : List String) (ds : List Expr) (vs : List Value) :
    Except PyErr Env :=
  if ps.length < vs.length then .error .typeError
  else if ps.length > vs.length + ds.length then .error .typeError
  else
    match ds.mapM constVal with
    | .error e => .error e
    | .ok dvals =>
      .ok (ps.zip (vs ++ dvals.drop (dvals.length - (ps.length - vs.length))))

/-- Invoke a module function: resolve the name, bind parameters, run the
body; falling off the end returns `None`. -/
def evalCall (reg : Registry) : Nat → String → List Value → Except PyErr Value
  | 0, _, _ => .error .fuelOut
  | fuel + 1, f, vs =>
    match alookup reg f with
    | Option.none => .error .nameError
    | some fd =>
      match bindParams fd.args fd.defaults vs with
      | .error e => .error e
      | .ok env =>
        match execStmts (evalCall reg fuel) env fd.body with
        | .error e => .error e
        | .ok (_, some v) => .ok v
        | .ok (_, Option.none) => .ok .none

/-- The module globals built by `exec_tree` (later definitions shadow
earlier ones of the same name, as in a dict). -/
def regOf (prog : List FunctionDef) : Registry :=
  prog.foldl (fun m fd => aset m fd.name fd) []

/-- Modelled from the spec (the reference semantics an un-rewritten
definition denotes, used for the refinement claims): bind the inputs to
the parameters, execute the body, and read the declared output
expression — the return annotation, a name or tuple of names — in the
final environment.  Calls inside the body denote the same reference
semantics of their callee. -/
def srcCall (prog : List FunctionDef) : Nat → String → List Value → Except PyErr Value
  | 0, _, _ => .error .fuelOut
  | fuel + 1, f, vs =>
    match alookup (regOf prog) f with
    | Option.none => .error .nameError
    | some fd =>
      match bindParams fd.args fd.defaults vs with
      | .error e => .error e
      | .ok env =>
        match execStmts (srcCall prog fuel) env fd.body with
        | .error e => .error e
        | .ok (_, some _) => .error .unsupported
        | .ok (env', Option.none) =>
          match fd.returns with
          | some ann => evalExpr (srcCall prog fuel) env' ann
          | Option.none => .error .unsupported

/-! ### The circuit console (`console.py`)

The console's observable effects (printed lines) are surfaced as `Out`
values; `_trigger_circuit` additionally reports how many times it invoked
the selected circuit. -/

/-- Entries of the console's local namespace: the compiled definitions,
the `help` / `?` / `list` helpers bound by `__init__`, and the
`__builtins__` dict that `exec` leaves in the module globals. -/
inductive Entry where
  | circ (fd : FunctionDef)
  | helper
  | builtinsObj
deriving Repr

structure Console where
  locals : List (String × Entry)
  current : Option String
  inputs : List (String × Int)
  state : Value
deriving Repr

/-- Printed lines (and the fall-through to ordinary Python execution,
which is outside the modelled core). -/
inductive Out where
  | helpText
  | listText
  | loaded (name : String)
  | unknownCircuit (name : String)
  | noCircuit
  | row (result : Value)
  | fallthrough (src : String)
deriving Repr

def Out.isRow : Out → Bool
  | .row _ => true
  | _ => false

/-- Build the console over a compiled module: `exec_tree` produces the
globals (with `__builtins__`), and `CircuitConsole.__init__` adds the
`help`, `?` and `list` helpers to that same dict. -/
def consoleOf (prog' : List FunctionDef) : Console :=
  let base : List (String × Entry) :=
    ("__builtins__", Entry.builtinsObj) :: (regOf prog').map (fun e => (e.1, Entry.circ e.2))
  { locals := aset (aset (aset base "help" .helper) "?" .helper) "list" .helper
    current := Option.none
    inputs := []
    state := .none }

/-- The compiled functions of the console's namespace (the module
globals used to resolve calls). -/
def defsRegOf (c : Console) : Registry :=
  c.locals.filterMap (fun e =>
    match e.2 with
    | .circ fd => some (e.1, fd)
    | _ => Option.none)

def evalFuel : Nat := 50

/-- One invocation of the selected circuit on the current inputs and a
given state value, `self.current_circuit(*(input_values + [self.state]))`. -/
def circCall (c : Console) (st : Value) : Except PyErr Value :=
  match c.current with
  | Option.none => .error .typeError
  | some nm =>
    match alookup c.locals nm with
    | some (.circ _) =>
      evalCall (defsRegOf c) evalFuel nm (c.inputs.map (fun kv => Value.int kv.2) ++ [st])
    | _ => .error .typeError

/-- The `while iteration < MAX_ITERATIONS` loop of `_trigger_circuit`:
invoke, unpack `result, self.state`, stop silently when the result equals
the previous one (printing nothing for that iteration), otherwise print a
row and continue; when the cap is exhausted the loop just ends and the
last computed result stands.  Returns (result, state, printed rows,
number of invocations). -/
def triggerGo (call : Value → Except PyErr Value) :
    Nat → Value → Value → List Value → Nat →
    Except PyErr (Value × Value × List Value × Nat)
  | 0, prev, st, rows, n => .ok (prev, st, rows, n)
  | fuel + 1, prev, st, rows, n =>
    match call st with
    | .error e => .error e
    | .ok v =>
      match v with
      | .tuple [r, s'] =>
        if pyEq r prev then .ok (r, s', rows, n + 1)
        else triggerGo call fuel r s' (rows ++ [r]) (n + 1)
      | .tuple _ => .error .valueError
      | _ => .error .typeError

def MAX_ITERATIONS : Nat := 100

def trigger_circuit (c : Console) : Except PyErr (Value × Value × List Value × Nat) :=
  triggerGo (circCall c) MAX_ITERATIONS .none c.state [] 0

/-- `CircuitConsole.runsource` (inputs assumed pre-stripped): the
`help`/`?`/`list` commands, re-run on empty input, `@name` selection,
input toggling, and the fall-through to ordinary execution. -/
def runsource (c : Console) (src : String) : Except PyErr (Console × List Out) :=
  if src = "help" ∨ src = "?" then .ok (c, [.helpText])
  else if src = "list" then .ok (c, [.listText])
  else if src = "" then
    match c.current with
    | some _ =>
      match trigger_circuit c with
      | .error e => .error e
      | .ok (_, s', rows, _) => .ok ({ c with state := s' }, rows.map .row)
    | Option.none => .ok (c, [.fallthrough src])
  else
    match src.data with
    | '@' :: rest =>
      let nm := String.mk rest
      match alookup c.locals nm with
      | Option.none => .ok (c, [.unknownCircuit nm])
      | some (.circ fd) =>
        .ok ({ c with
                current := some nm
                inputs := (fd.args.filter (fun a => a ≠ "state")).map (fun a => (a, 0))
                state := .none }, [.loaded nm])
      | some .helper =>
        .ok ({ c with current := some nm, inputs := [], state := .none }, [.loaded nm])
      | some .builtinsObj => .error .typeError
    | _ =>
      match alookup c.inputs src with
      | some v =>
        match c.current with
        | some _ =>
          let c1 := { c with inputs := aset c.inputs src (1 - v) }
          match trigger_circuit c1 with
          | .error e => .error e
          | .ok (_, s', rows, _) => .ok ({ c1 with state := s' }, rows.map .row)
        | Option.none => .ok (c, [.noCircuit])
      | Option.none => .ok (c, [.fallthrough src])

/-! ### Concrete programs used by the claims -/

/-- `def AND(a, b) -> y: y = a and b` -/
def fdAND : FunctionDef :=
  { name := "AND", args := ["a", "b"], defaults := [], returns := some (.name "y")
    body := [.assign (.name "y") (.boolAnd (.name "a") (.name "b"))] }

/-- `def NAND(a, b) -> y: y = not AND(a, b)` -/
def fdNAND : FunctionDef :=
  { name := "NAND", args := ["a", "b"], defaults := [], returns := some (.name "y")
    body := [.assign (.name "y") (.unaryNot (.call "AND" [.name "a", .name "b"]))] }

def pAndNand : List FunctionDef := [fdAND, fdNAND]

/-- `def inner(a) -> y: y = mem` — own state variable `mem`. -/
def fdInner : FunctionDef :=
  { name := "inner", args := ["a"], defaults := [], returns := some (.name "y")
    body := [.assign (.name "y") (.name "mem")] }

/-- `def mid(a) -> y: y = inner(a)` — stateful only transitively. -/
def fdMid : FunctionDef :=
  { name := "mid", args := ["a"], defaults := [], returns := some (.name "y")
    body := [.assign (.name "y") (.call "inner" [.name "a"])] }

/-- `def outer(a) -> y: y = mid(a)` — its callee is stateful but owns no state. -/
def fdOuter : FunctionDef :=
  { name := "outer", args := ["a"], defaults := [], returns := some (.name "y")
    body := [.assign (.name "y") (.call "mid" [.name "a"])] }

def pChain : List FunctionDef := [fdInner, fdMid, fdOuter]

/-- `def CTR(a) -> count: count` — reads the own state variable `count`
(never assigned) and declares it as the output. -/
def fdCTR : FunctionDef :=
  { name := "CTR", args := ["a"], defaults := [], returns := some (.name "count")
    body := [.exprStmt (.name "count")] }

def pCtr : List FunctionDef := [fdCTR]

/-- `def OSC(a) -> y: t = 1 - t; y = t` — output alternates forever. -/
def fdOSC : FunctionDef :=
  { name := "OSC", args := ["a"], defaults := [], returns := some (.name "y")
    body := [.assign (.name "t") (.binSub (.const (.int 1)) (.name "t")),
             .assign (.name "y") (.name "t")] }

def pOsc : List FunctionDef := [fdOSC]

/-- `def A(a) -> y: y = B(a)` and `def B(a) -> y: y = A(a)` — mutual recursion. -/
def fdA : FunctionDef :=
  { name := "A", args := ["a"], defaults := [], returns := some (.name "y")
    body := [.assign (.name "y") (.call "B" [.name "a"])] }

def fdB : FunctionDef :=
  { name := "B", args := ["a"], defaults := [], returns := some (.name "y")
    body := [.assign (.name "y") (.call "A" [.name "a"])] }

def pCyc : List FunctionDef := [fdA, fdB]

/-- `S` owns state, `F` and `G` both call it (slot aliasing test). -/
def fdS : FunctionDef :=
  { name := "S", args := ["a"], defaults := [], returns := some (.name "y")
    body := [.assign (.name "y") (.name "m")] }

def fdF : FunctionDef :=
  { name := "F", args := ["a"], defaults := [], returns := some (.name "y")
    body := [.assign (.name "y") (.call "S" [.name "a"])] }

def fdG : FunctionDef :=
  { name := "G", args := ["a"], defaults := [], returns := some (.name "y")
    body := [.assign (.name "y") (.call "S" [.name "a"])] }

def pSFG : List FunctionDef := [fdS, fdF, fdG]

/-! ### Support definitions used by the statements -/

/-- The compiled module of a program (empty on compilation failure). -/
def compiledOf (p : List FunctionDef) : List FunctionDef :=
  match parse_script p with
  | .ok (p', _) => p'
  | .error _ => []

/-- The console `main` builds over a source program. -/
def consoleFor (p : List FunctionDef) : Console := consoleOf (compiledOf p)

/-- `caller transitively calls callee` in the call graph. -/
inductive Reaches (edges : List (String × String)) : String → String → Prop where
  | single {f d : String} : (f, d) ∈ edges → Reaches edges f d
  | step {f d g : String} : (f, d) ∈ edges → Reaches edges d g → Reaches edges f g

/-- Slots with consecutive counters starting at `b`. -/
def slotsFrom (b : Nat) : List String → List String
  | [] => []
  | d :: ds => slotName d b :: slotsFrom (b + 1) ds

def partsKeys (ps : Parts) : List String := ps.map Prod.fst

/-- The final `stateful` flag a name resolves to in a parts table. -/
def statefulAt (ps : Parts) (d : String) : Bool :=
  match alookup ps d with
  | some p => p.stateful
  | Option.none => false

/-- All dep_state slots of a parts table, in table order. -/
def flattenSlots (ps : Parts) : List String :=
  ps.foldr (fun e acc => e.2.dep_state ++ acc) []

/-- Well-formedness of the input handed to `analyze`: distinct part
names; ordered names are distinct, have parts, and respect the
dependency graph (callees strictly earlier); any part with a call site is
covered by the order together with its callees; parts are fresh from the
tracker (no slots yet, `stateful` iff some own state variable). -/
structure AOK (ps0 : Parts) (order : List String) : Prop where
  nodupKeys : (partsKeys ps0).Nodup
  nodupOrd : order.Nodup
  dom : ∀ nm ∈ order, (alookup ps0 nm).isSome = true
  topo : ∀ e ∈ ps0, ∀ d ∈ e.2.deps,
    e.1 ∈ order ∧ d ∈ order ∧ idx order d < idx order e.1
  init : ∀ e ∈ ps0, e.2.dep_state = [] ∧ e.2.stateful = !e.2.state.isEmpty

/-- Checks that `fuel` successive invocations of the circuit each succeed,
return a `(result, state)` pair, and produce a result different from the
previous one (`prev` seeds the comparison chain). -/
def altStepsB (call : Value → Except PyErr Value) : Nat → Value → Value → Bool
  | 0, _, _ => true
  | n + 1, prev, st =>
    match call st with
    | .ok (.tuple [r, s']) => !pyEq r prev && altStepsB call n r s'
    | _ => false

/-- The run such a circuit produces: final result, final state, and the
results in invocation order. -/
def altRun (call : Value → Except PyErr Value) : Nat → Value → Value →
    Value × Value × List Value
  | 0, prev, st => (prev, st, [])
  | n + 1, prev, st =>
    match call st with
    | .ok (.tuple [r, s']) =>
      let (fr, fs, rs) := altRun call n r s'
      (fr, fs, r :: rs)
    | _ => (prev, st, [])

/-! Compiled artefacts of the concrete programs, as literals. -/

def chainProg : List FunctionDef :=
  [{ name := "inner", args := ["a", "state"], defaults := [.const .none], returns := Option.none
     body := [.assign (.name "mem") (.ifExp (.name "state") (.name "state") (.const (.int 0))),
              .assign (.name "y") (.name "mem"),
              .assign (.name "state") (.name "mem"),
              .ret (.tuple [.name "y", .name "state"])] },
   { name := "mid", args := ["a", "state"], defaults := [.const .none], returns := Option.none
     body := [.assign (.name "_inner_0") (.ifExp (.name "state") (.name "state") (.const .none)),
              .assign (.tup [.name "y", .name "_inner_0"])
                (.call "inner" [.name "a", .name "_inner_0"]),
              .assign (.name "state") (.name "_inner_0"),
              .ret (.tuple [.name "y", .name "state"])] },
   { name := "outer", args := ["a", "state"], defaults := [.const .none], returns := Option.none
     body := [.assign (.name "_mid_1") (.ifExp (.name "state") (.name "state") (.const .none)),
              .assign (.name "y") (.call "mid" [.name "a"]),
              .assign (.name "state") (.name "_mid_1"),
              .ret (.tuple [.name "y", .name "state"])] }]

def chainParts : Parts :=
  [("inner", { args := ["a"], state := ["mem"], deps := [], dep_state := []
               returns := ["y"], stateful := true }),
   ("mid", { args := ["a"], state := [], deps := ["inner"], dep_state := ["_inner_0"]
             returns := ["y"], stateful := true }),
   ("outer", { args := ["a"], state := [], deps := ["mid"], dep_state := ["_mid_1"]
               returns := ["y"], stateful := true })]

def anParts : Parts :=
  [("AND", { args := ["a", "b"], state := [], deps := [], dep_state := []
             returns := ["y"], stateful := false }),
   ("NAND", { args := ["a", "b"], state := [], deps := ["AND"], dep_state := []
              returns := ["y"], stateful := false })]

/-- The console after `@NAND` has been selected. -/
def cNandSel : Console :=
  { consoleFor pAndNand with
    current := some "NAND", inputs := [("a", 0), ("b", 0)], state := .none }

/-- The console after `@OSC` has been selected. -/
def oscSel : Console :=
  { consoleFor pOsc with current := some "OSC", inputs := [("a", 0)], state := .none }

/-- The same console once input `a` has been toggled on. -/
def oscToggled : Console := { oscSel with inputs := [("a", 1)] }

/-- The 100 results the oscillator prints: `1, 0, 1, 0, ...`. -/
def oscRows : List Value :=
  (List.range 100).map (fun i => if i % 2 = 0 then Value.int 1 else Value.int 0)

/-- A list of nodes in which every node's predecessors appear strictly
earlier (the correctness property of a topological order). -/
def KahnValid (edges : List (String × String)) (l : List String) : Prop :=
  ∀ d1 x d2, l = d1 ++ x :: d2 → ∀ p ∈ predsOf edges x, p ∈ d1

/-- Invariant maintained by `analyzeGo` after the names in `done` have
been processed: the table keeps its keys; unprocessed entries are
untouched; each processed entry carries the final stateful flag and a
block of consecutively numbered slots for its stateful call sites, its
callees already processed; all allocated slots are distinct and their
counters lie below the running counter. -/
def AInv (ps0 : Parts) (done : List String) (ps : Parts) (n : Nat) : Prop :=
  partsKeys ps = partsKeys ps0 ∧
  (∀ nm, nm ∉ done → alookup ps nm = alookup ps0 nm) ∧
  (∀ nm p0, alookup ps0 nm = some p0 → nm ∈ done →
    ∃ p1, alookup ps nm = some p1 ∧
      p1.args = p0.args ∧ p1.state = p0.state ∧ p1.deps = p0.deps ∧
      p1.returns = p0.returns ∧
      p1.stateful = (!p0.state.isEmpty || p0.deps.any (statefulAt ps)) ∧
      (∀ d ∈ p0.deps, d ∈ done) ∧
      ∃ b, p1.dep_state = slotsFrom b (p0.deps.filter (statefulAt ps)) ∧
        b + (p0.deps.filter (statefulAt ps)).length ≤ n) ∧
  (flattenSlots ps).Nodup ∧
  (∀ s ∈ flattenSlots ps, ∃ d m, s = slotName d m ∧ m < n)

/-- The compiled counter program as a literal. -/
def ctrProg : List FunctionDef :=
  [{ name := "CTR", args := ["a", "state"], defaults := [.const .none], returns := Option.none
     body := [.assign (.name "count") (.ifExp (.name "state") (.name "state") (.const (.int 0))),
              .exprStmt (.name "count"),
              .assign (.name "state") (.name "count"),
              .ret (.tuple [.name "count", .name "state"])] }]

/-- A state value of the arity the unpack statement expects: a bare value
for a single state name, a tuple of matching length otherwise. -/
def arityMatch (names : List String) (s : Value) : Prop :=
  match names with
  | [_] => True
  | _ => ∃ vs, s = .tuple vs ∧ vs.length = names.length

/-- Sequentially bind a list of (name, value) pairs into an environment. -/
def bindAll (env : Env) (pairs : List (String × Value)) : Env :=
  pairs.foldl (fun e kv => aset e kv.1 kv.2) env

/-- The state value a list of component values packs into: a bare value
for a single component, a tuple otherwise (mirroring the `(v1, ..., vk)`
expressions the rewriter generates). -/
def packVal : List Value → Value
  | [d] => d
  | ds => .tuple ds

mutual
/-- All callee names occurring in an expression, in pre-order (the
deps component of `collectExpr`, which does not depend on the parameter
list). -/
def callNames : Expr → List String
  | .name _ => []
  | .const _ => []
  | .tuple es => callNamesList es
  | .call f es => f :: callNamesList es
  | .unaryNot e => callNames e
  | .boolAnd l r => callNames l ++ callNames r
  | .binSub l r => callNames l ++ callNames r
  | .ifExp t b o => callNames t ++ callNames b ++ callNames o

def callNamesList : List Expr → List String
  | [] => []
  | e :: es => callNames e ++ callNamesList es
end

def callNamesStmt : Stmt → List String
  | .assign _ e => callNames e
  | .exprStmt e => callNames e
  | .ret e => callNames e

def callNamesStmts : List Stmt → List String
  | [] => []
  | s :: ss => callNamesStmt s ++ callNamesStmts ss

def Stmt.isRet : Stmt → Bool
  | .ret _ => true
  | _ => false

/-- The compiled AND/NAND module as a literal (the output of
`parse_script pAndNand`). -/
def andNandCompiled : List FunctionDef :=
  [{ name := "AND", args := ["a", "b"], defaults := [], returns := Option.none
     body := [.assign (.name "y") (.boolAnd (.name "a") (.name "b")),
              .ret (.name "y")] },
   { name := "NAND", args := ["a", "b"], defaults := [], returns := Option.none
     body := [.assign (.name "y") (.unaryNot (.call "AND" [.name "a", .name "b"])),
              .ret (.name "y")] }]

/-- The CTR console right after selecting `@CTR` (computed by `runsource`). -/
def cCtrSel : Console :=
  { consoleFor pCtr with current := some "CTR", inputs := [("a", 0)] }

/-- The CTR console after one toggle of input `a`. -/
def cCtrSel1 : Console :=
  { consoleFor pCtr with current := some "CTR", inputs := [("a", 1)], state := .int 0 }

/-- The CTR console after a second toggle of input `a`. -/
def cCtrSel2 : Console :=
  { consoleFor pCtr with current := some "CTR", inputs := [("a", 0)], state := .int 0 }

/-! ## Theorems -/

/-! ### Generic list facts for the embedding's primitives -/

theorem elemStr_iff {s : String} {l : List String} : elemStr s l = true ↔ s ∈ l := by
  induction l with
  | nil => simp [elemStr]
  | cons t ts ih =>
    show (if t = s then true else elemStr s ts) = true ↔ _
    by_cases h : t = s
    · subst h
      simp
    · simp only [if_neg h, ih, List.mem_cons]
      constructor
      · exact Or.inr
      · rintro (rfl | hm)
        · exact absurd rfl h
        · exact hm

theorem idx_lt_length {l : List String} {s : String} (h : s ∈ l) : idx l s < l.length := by
  induction l with
  | nil => cases h
  | cons t ts ih =>
    by_cases ht : t = s
    · simp [idx, ht]
    · rcases List.mem_cons.mp h with h' | h'
      · exact absurd h'.symm ht
      · simpa [idx, ht] using ih h'

theorem idx_append_left {l1 : List String} (l2 : List String) {s : String} (h : s ∈ l1) :
    idx (l1 ++ l2) s = idx l1 s := by
  induction l1 with
  | nil => cases h
  | cons t ts ih =>
    by_cases ht : t = s
    · simp [idx, ht]
    · rcases List.mem_cons.mp h with h' | h'
      · exact absurd h'.symm ht
      · simp [idx, ht, ih h']

theorem idx_append_right {l1 : List String} (l2 : List String) {s : String} (h : s ∉ l1) :
    idx (l1 ++ l2) s = l1.length + idx l2 s := by
  induction l1 with
  | nil => simp
  | cons t ts ih =>
    have ht : t ≠ s := fun he => h (he ▸ List.mem_cons_self t ts)
    have hs : s ∉ ts := fun hm => h (List.mem_cons_of_mem _ hm)
    simp [idx, ht, ih hs]
    omega

theorem mem_split_first {l : List String} {s : String} (h : s ∈ l) :
    ∃ l1 l2, l = l1 ++ s :: l2 ∧ s ∉ l1 ∧ idx l s = l1.length := by
  induction l with
  | nil => cases h
  | cons t ts ih =>
    by_cases ht : t = s
    · exact ⟨[], ts, by simp [ht], by simp, by simp [idx, ht]⟩
    · rcases List.mem_cons.mp h with h' | h'
      · exact absurd h'.symm ht
      · obtain ⟨l1, l2, he, hn, hi⟩ := ih h'
        refine ⟨t :: l1, l2, by simp [he], ?_, ?_⟩
        · intro hc
          rcases List.mem_cons.mp hc with hc | hc
          · exact ht hc.symm
          · exact hn hc
        · simp [idx, ht, hi]

/-! ### `staticOrder` correctness: a cycle forces `CycleError` -/

theorem mem_addNode {x n : String} {l : List String} :
    x ∈ addNode n l ↔ x = n ∨ x ∈ l := by
  unfold addNode
  split
  · constructor
    · exact Or.inr
    · rintro (rfl | h) <;> [assumption; assumption]
  · simp [or_comm]

theorem mem_nodesOf_aux {edges : List (String × String)} {x : String} :
    ∀ init, x ∈ edges.foldl (fun ns e => addNode e.2 (addNode e.1 ns)) init ↔
      x ∈ init ∨ ∃ e ∈ edges, x = e.1 ∨ x = e.2 := by
  induction edges with
  | nil => simp
  | cons e es ih =>
    intro init
    simp only [List.foldl_cons, ih, mem_addNode, List.mem_cons]
    constructor
    · intro h
      rcases h with (h | h | h) | h
      · exact Or.inr ⟨e, Or.inl rfl, Or.inr h⟩
      · exact Or.inr ⟨e, Or.inl rfl, Or.inl h⟩
      · exact Or.inl h
      · obtain ⟨e', he', h⟩ := h
        exact Or.inr ⟨e', Or.inr he', h⟩
    · intro h
      rcases h with h | h
      · exact Or.inl (Or.inr (Or.inr h))
      · obtain ⟨e', he', h⟩ := h
        rcases he' with he' | he'
        · subst he'
          rcases h with h | h
          · exact Or.inl (Or.inr (Or.inl h))
          · exact Or.inl (Or.inl h)
        · exact Or.inr ⟨e', he', h⟩

theorem mem_nodesOf {edges : List (String × String)} {x : String} :
    x ∈ nodesOf edges ↔ ∃ e ∈ edges, x = e.1 ∨ x = e.2 := by
  unfold nodesOf
  simpa using @mem_nodesOf_aux edges x []

theorem mem_predsOf {edges : List (String × String)} {f d : String} :
    d ∈ predsOf edges f ↔ (f, d) ∈ edges := by
  induction edges with
  | nil => simp [predsOf]
  | cons e es ih =>
    show d ∈ (if e.1 = f then e.2 :: predsOf es f else predsOf es f) ↔ _
    split
    · next h =>
      simp only [List.mem_cons, ih]
      constructor
      · rintro (rfl | hm)
        · exact Or.inl (by rw [← h])
        · exact Or.inr hm
      · rintro (he | hm)
        · exact Or.inl (by rw [← he])
        · exact Or.inr hm
    · next h =>
      simp only [List.mem_cons, ih]
      constructor
      · exact Or.inr
      · rintro (he | hm)
        · exact absurd (congrArg Prod.fst he.symm) h
        · exact hm

theorem kahnGo_error_cycle {edges : List (String × String)} :
    ∀ fuel done rem e, kahnGo edges fuel done rem = .error e → e = .cycleError := by
  intro fuel
  induction fuel with
  | zero =>
    intro done rem e h
    cases rem with
    | nil => exact absurd h (by rw [kahnGo]; simp)
    | cons r rs =>
      rw [kahnGo] at h
      cases h
      rfl
  | succ fuel ih =>
    intro done rem e h
    cases rem with
    | nil => exact absurd h (by rw [kahnGo]; simp)
    | cons r rs =>
      rw [kahnGo] at h
      split at h
      · cases h
        rfl
      · exact ih _ _ _ h

theorem kahnGo_ok_valid {edges : List (String × String)} :
    ∀ fuel done rem L, kahnGo edges fuel done rem = .ok L →
      KahnValid edges done →
      (∀ x ∈ nodesOf edges, x ∈ done ∨ x ∈ rem) →
      KahnValid edges L ∧ ∀ x ∈ nodesOf edges, x ∈ L := by
  intro fuel
  induction fuel with
  | zero =>
    intro done rem L h hv hc
    cases rem with
    | nil =>
      rw [kahnGo] at h
      cases h
      exact ⟨hv, fun x hx => (hc x hx).elim id (fun hx' => absurd hx' (List.not_mem_nil x))⟩
    | cons r rs => exact absurd h (by simp [kahnGo])
  | succ fuel ih =>
    intro done rem L h hv hc
    cases rem with
    | nil =>
      rw [kahnGo] at h
      cases h
      exact ⟨hv, fun x hx => (hc x hx).elim id (fun hx' => absurd hx' (List.not_mem_nil x))⟩
    | cons r rs =>
      rw [kahnGo] at h
      split at h
      · exact absurd h (by simp)
      · refine ih _ _ _ h ?_ ?_
        · -- appending the ready batch preserves validity
          intro d1 x d2 hsplit p hp
          rcases List.append_eq_append_iff.mp hsplit with ⟨a', ha1, ha2⟩ | ⟨c', hc1, hc2⟩
          · -- x lies inside the ready batch and done is a prefix of d1
            have hxready : x ∈ (r :: rs).filter
                (fun x => (predsOf edges x).all (fun d => elemStr d done)) := by
              rw [ha2]
              exact List.mem_append_right _ (List.mem_cons_self x d2)
            have hall := (List.mem_filter.mp hxready).2
            have hpd : p ∈ done := elemStr_iff.mp (List.all_eq_true.mp hall p hp)
            rw [ha1]
            exact List.mem_append_left _ hpd
          · cases c' with
            | nil =>
              -- d1 is exactly done and x heads the ready batch
              simp only [List.nil_append] at hc2
              have hxready : x ∈ (r :: rs).filter
                  (fun x => (predsOf edges x).all (fun d => elemStr d done)) := by
                rw [← hc2]
                exact List.mem_cons_self x d2
              have hall := (List.mem_filter.mp hxready).2
              have hpd : p ∈ done := elemStr_iff.mp (List.all_eq_true.mp hall p hp)
              rw [hc1] at hpd
              simpa using hpd
            | cons y c'' =>
              -- x is inside the old done prefix
              have hy : y = x := by
                have := congrArg (fun l => l.head?) hc2
                simpa using this.symm
              subst hy
              exact hv d1 y c'' (by simpa using hc1) p hp
        · intro x hx
          rcases hc x hx with hx' | hx'
          · exact Or.inl (List.mem_append_left _ hx')
          · by_cases hr : x ∈ (r :: rs).filter
                (fun x => (predsOf edges x).all (fun d => elemStr d done))
            · exact Or.inl (List.mem_append_right _ hr)
            · refine Or.inr (List.mem_filter.mpr ⟨hx', ?_⟩)
              have hfalse : elemStr x ((r :: rs).filter
                  (fun x => (predsOf edges x).all (fun d => elemStr d done))) = false := by
                cases hE : elemStr x ((r :: rs).filter
                    (fun x => (predsOf edges x).all (fun d => elemStr d done)))
                · rfl
                · exact absurd (elemStr_iff.mp hE) hr
              simp [hfalse]

/-- Claim C5: any definition that directly or transitively calls itself
makes `parse_script` fail with the cycle error from the ordering step,
before the rewriter touches any definition. -/
theorem c5_cycle_rejected (prog : List FunctionDef) (f : String)
    (h : Reaches (edgesOf prog) f f) :
    parse_script prog = .error .cycleError := by
  unfold parse_script
  cases hso : staticOrder (edgesOf prog) with
  | error e =>
    have he : e = .cycleError := kahnGo_error_cycle _ _ _ _ hso
    subst he
    rfl
  | ok L =>
    exfalso
    have init_valid : KahnValid (edgesOf prog) [] := by
      intro d1 x d2 hsplit
      exact absurd hsplit.symm (by simp)
    have init_cov : ∀ x ∈ nodesOf (edgesOf prog), x ∈ ([] : List String) ∨ x ∈ nodesOf (edgesOf prog) :=
      fun x hx => Or.inr hx
    obtain ⟨hvalid, hcomplete⟩ := kahnGo_ok_valid _ _ _ _ hso init_valid init_cov
    have edge_lt : ∀ a b, (a, b) ∈ edgesOf prog → idx L b < idx L a := by
      intro a b hab
      have haN : a ∈ nodesOf (edgesOf prog) := mem_nodesOf.mpr ⟨(a, b), hab, Or.inl rfl⟩
      have hbN : b ∈ nodesOf (edgesOf prog) := mem_nodesOf.mpr ⟨(a, b), hab, Or.inr rfl⟩
      obtain ⟨l1, l2, hsplit, hnot, hidx⟩ := mem_split_first (hcomplete a haN)
      have hb1 : b ∈ l1 := hvalid l1 a l2 hsplit b (mem_predsOf.mpr hab)
      calc idx L b = idx l1 b := by rw [hsplit]; exact idx_append_left _ hb1
        _ < l1.length := idx_lt_length hb1
        _ = idx L a := hidx.symm
    have key : ∀ a b, Reaches (edgesOf prog) a b → idx L b < idx L a := by
      intro a b hr
      induction hr with
      | single hmem => exact edge_lt _ _ hmem
      | step hmem _ ih => exact lt_trans ih (edge_lt _ _ hmem)
    exact lt_irrefl _ (key f f h)

/-- Claim C5 witness: the mutually recursive pair `A ↔ B`. -/
theorem c5_witness :
    Reaches (edgesOf pCyc) "A" "A" ∧ parse_script pCyc = .error .cycleError := by
  have hAB : ("A", "B") ∈ edgesOf pCyc := by
    show ("A", "B") ∈ [("A", "B"), ("B", "A")]
    simp
  have hBA : ("B", "A") ∈ edgesOf pCyc := by
    show ("B", "A") ∈ [("A", "B"), ("B", "A")]
    simp
  have hr : Reaches (edgesOf pCyc) "A" "A" := .step hAB (.single hBA)
  exact ⟨hr, c5_cycle_rejected pCyc "A" hr⟩

/-- Claim C1 (code bug): in the compiled three-definition chain
`inner` (own state) ← `mid` ← `outer`, the resolver marks `mid` stateful
(transitively, with no own state variables) and allocates slot `_mid_1`
for `outer`'s single call site to `mid`; the claim then requires that
call site to receive the slot as an extra trailing argument and a paired
target, but the rewriter leaves `y = mid(a)` completely untouched, because
`visit_Assign` tests the callee's own-state set instead of its `stateful`
flag. -/
theorem c1_transitive_callee_not_threaded :
    parse_script pChain = .ok (chainProg, chainParts) ∧
    alookup chainParts "mid" =
      some { args := ["a"], state := [], deps := ["inner"], dep_state := ["_inner_0"]
             returns := ["y"], stateful := true } ∧
    alookup chainParts "outer" =
      some { args := ["a"], state := [], deps := ["mid"], dep_state := ["_mid_1"]
             returns := ["y"], stateful := true } ∧
    (chainProg.map FunctionDef.body).getLast? =
      some [unpack_state [] ["_mid_1"],
            Stmt.assign (.name "y") (.call "mid" [.name "a"]),
            pack_state [] ["_mid_1"],
            stateful_return ["y"]] := by
  refine ⟨rfl, rfl, rfl, rfl⟩

/-- Claim C3 (code bug): compiling the non-stateful `AND` / `NAND`
program succeeds (both parts non-stateful), selecting `@NAND` works, but
toggling input `a` raises `TypeError` instead of printing a stabilised
row: `_trigger_circuit` appends the retained state to the argument list
(3 arguments for the 2-parameter `NAND`) and unpacks the result as a
pair, which only works for stateful circuits. -/
theorem c3_nand_toggle_raises :
    (parse_script pAndNand).map Prod.snd = .ok anParts ∧
    alookup anParts "NAND" =
      some { args := ["a", "b"], state := [], deps := ["AND"], dep_state := []
             returns := ["y"], stateful := false } ∧
    runsource (consoleFor pAndNand) "@NAND" = .ok (cNandSel, [.loaded "NAND"]) ∧
    runsource cNandSel "a" = .error .typeError := by
  refine ⟨rfl, rfl, rfl, rfl⟩

set_option maxRecDepth 4000 in
/-- Claim C4 (counterexample): on the oscillating circuit the run does
perform exactly 100 invocations and then stops, but no
StabilizationTimeout status is reported anywhere: the trigger returns
only the last computed result together with the new state, and every
observable the run produces is an ordinary output row — the printed
output of the timed-out run is indistinguishable in kind from ordinary
rows. -/
theorem c4_no_timeout_status_reported :
    runsource oscSel "a" = .ok ({ oscToggled with state := .int 0 }, oscRows.map Out.row) ∧
    trigger_circuit oscToggled = .ok (.int 0, .int 0, oscRows, 100) ∧
    oscRows.length = 100 ∧
    (oscRows.map Out.row).all Out.isRow = true := by
  refine ⟨rfl, rfl, rfl, rfl⟩

/-! ### Decimal slot names: the counter determines the name

`analyze` builds `f"_{dep_name}_{n}"` with a globally fresh `n`; the
lemmas below show the decimal digits of `n` can be recovered from the
string (they form the segment after the last underscore), so distinct
counters give distinct slot identifiers. -/

theorem toDigitsCore_append :
    ∀ f n (ds : List Char), n < f →
      Nat.toDigitsCore 10 f n ds = Nat.toDigitsCore 10 f n [] ++ ds := by
  intro f
  induction f with
  | zero => intro n ds h; omega
  | succ f ih =>
    intro n ds h
    simp only [Nat.toDigitsCore]
    by_cases hz : n / 10 = 0
    · simp [hz]
    · have hn10 : 10 ≤ n := by
        by_contra hlt
        exact hz (Nat.div_eq_of_lt (by omega))
      have h1 : n / 10 < f := by omega
      simp only [hz, if_neg hz]
      rw [ih (n / 10) (Nat.digitChar (n % 10) :: ds) h1,
          ih (n / 10) [Nat.digitChar (n % 10)] h1]
      simp

theorem toDigitsCore_fuel :
    ∀ f n, n < f → Nat.toDigitsCore 10 f n [] = Nat.toDigits 10 n := by
  intro f
  induction f using Nat.strong_induction_on with
  | _ f ih =>
    intro n h
    cases f with
    | zero => omega
    | succ f =>
      by_cases hz : n / 10 = 0
      · show Nat.toDigitsCore 10 (f + 1) n [] = Nat.toDigitsCore 10 (n + 1) n []
        simp only [Nat.toDigitsCore, hz, if_pos]
      · have hn10 : 10 ≤ n := by
          by_contra hlt
          exact hz (Nat.div_eq_of_lt (by omega))
        have h1 : n / 10 < f := by omega
        have h2 : n / 10 < n := Nat.div_lt_self (by omega) (by omega)
        show Nat.toDigitsCore 10 (f + 1) n [] = Nat.toDigitsCore 10 (n + 1) n []
        simp only [Nat.toDigitsCore, hz, if_neg hz]
        rw [toDigitsCore_append f (n / 10) _ h1,
            toDigitsCore_append n (n / 10) _ h2,
            ih f (Nat.lt_succ_self f) (n / 10) h1,
            ih n h (n / 10) h2]

theorem toDigits_small {n : Nat} (h : n < 10) :
    Nat.toDigits 10 n = [Nat.digitChar n] := by
  have hz : n / 10 = 0 := Nat.div_eq_of_lt h
  have hm : n % 10 = n := Nat.mod_eq_of_lt h
  show Nat.toDigitsCore 10 (n + 1) n [] = _
  simp [Nat.toDigitsCore, hz, hm]

theorem toDigits_big {n : Nat} (h : 10 ≤ n) :
    Nat.toDigits 10 n = Nat.toDigits 10 (n / 10) ++ [Nat.digitChar (n % 10)] := by
  have hz : n / 10 ≠ 0 := by
    intro hc
    omega
  have h2 : n / 10 < n := Nat.div_lt_self (by omega) (by omega)
  show Nat.toDigitsCore 10 (n + 1) n [] = _
  simp only [Nat.toDigitsCore, hz, if_neg hz]
  rw [toDigitsCore_append n (n / 10) _ h2, toDigitsCore_fuel n (n / 10) h2]
  simp

theorem toDigits_ne_nil (n : Nat) : Nat.toDigits 10 n ≠ [] := by
  by_cases h : n < 10
  · rw [toDigits_small h]
    simp
  · rw [toDigits_big (by omega)]
    simp

theorem toDigits_chars (n : Nat) :
    ∀ c ∈ Nat.toDigits 10 n, ∃ d, d < 10 ∧ c = Nat.digitChar d := by
  induction n using Nat.strong_induction_on with
  | _ n ih =>
    by_cases h : n < 10
    · rw [toDigits_small h]
      intro c hc
      simp only [List.mem_singleton] at hc
      exact ⟨n, h, hc⟩
    · rw [toDigits_big (by omega)]
      intro c hc
      rcases List.mem_append.mp hc with hc | hc
      · exact ih (n / 10) (Nat.div_lt_self (by omega) (by omega)) c hc
      · simp only [List.mem_singleton] at hc
        exact ⟨n % 10, Nat.mod_lt _ (by omega), hc⟩

theorem digitChar_inj : ∀ a < 10, ∀ b < 10, Nat.digitChar a = Nat.digitChar b → a = b := by
  decide

theorem digitChar_ne_underscore : ∀ d < 10, Nat.digitChar d ≠ '_' := by
  decide

theorem toDigits_no_underscore (n : Nat) : '_' ∉ Nat.toDigits 10 n := by
  intro hmem
  obtain ⟨d, hd, he⟩ := toDigits_chars n _ hmem
  exact digitChar_ne_underscore d hd he.symm

theorem snoc_inj {xs ys : List Char} {x y : Char}
    (h : xs ++ [x] = ys ++ [y]) : xs = ys ∧ x = y := by
  have hr := congrArg List.reverse h
  simp only [List.reverse_append, List.reverse_cons, List.reverse_nil,
    List.nil_append, List.singleton_append] at hr
  obtain ⟨hxy, hrev⟩ := List.cons.inj hr
  exact ⟨List.reverse_inj.mp hrev, hxy⟩

theorem toDigits_inj : ∀ m k : Nat, Nat.toDigits 10 m = Nat.toDigits 10 k → m = k := by
  intro m
  induction m using Nat.strong_induction_on with
  | _ m ih =>
    intro k h
    by_cases hm : m < 10 <;> by_cases hk : k < 10
    · rw [toDigits_small hm, toDigits_small hk] at h
      exact digitChar_inj m hm k hk (List.singleton_inj.mp h)
    · rw [toDigits_small hm, toDigits_big (by omega)] at h
      have hlen := congrArg List.length h
      simp only [List.length_singleton, List.length_append] at hlen
      have : Nat.toDigits 10 (k / 10) = [] := by
        cases he : Nat.toDigits 10 (k / 10) with
        | nil => rfl
        | cons c cs =>
          rw [he] at hlen
          simp at hlen
      exact absurd this (toDigits_ne_nil _)
    · rw [toDigits_big (by omega), toDigits_small hk] at h
      have hlen := congrArg List.length h
      simp only [List.length_singleton, List.length_append] at hlen
      have : Nat.toDigits 10 (m / 10) = [] := by
        cases he : Nat.toDigits 10 (m / 10) with
        | nil => rfl
        | cons c cs =>
          rw [he] at hlen
          simp at hlen
      exact absurd this (toDigits_ne_nil _)
    · rw [toDigits_big (n := m) (by omega), toDigits_big (n := k) (by omega)] at h
      obtain ⟨hpre, hdig⟩ := snoc_inj h
      have hmod : m % 10 = k % 10 :=
        digitChar_inj _ (Nat.mod_lt _ (by omega)) _ (Nat.mod_lt _ (by omega)) hdig
      have hdiv : m / 10 = k / 10 :=
        ih (m / 10) (Nat.div_lt_self (by omega) (by omega)) (k / 10) hpre
      omega

theorem sep_first_inj :
    ∀ (u u' v v' : List Char), u ++ '_' :: v = u' ++ '_' :: v' →
      '_' ∉ u → '_' ∉ u' → u = u' ∧ v = v' := by
  intro u
  induction u with
  | nil =>
    intro u' v v' h hu hu'
    cases u' with
    | nil =>
      simp only [List.nil_append] at h
      exact ⟨rfl, (List.cons.inj h).2⟩
    | cons c cs =>
      simp only [List.nil_append, List.cons_append] at h
      have hc : c = '_' := (List.cons.inj h).1.symm
      exact absurd (hc ▸ List.mem_cons_self c cs) hu'
  | cons c cs ih =>
    intro u' v v' h hu hu'
    cases u' with
    | nil =>
      simp only [List.nil_append, List.cons_append] at h
      have hc : c = '_' := (List.cons.inj h).1
      exact absurd (hc ▸ List.mem_cons_self c cs) hu
    | cons c' cs' =>
      simp only [List.cons_append] at h
      obtain ⟨hc, hrest⟩ := List.cons.inj h
      have hcs : cs ++ '_' :: v = cs' ++ '_' :: v' := hrest
      have := ih cs' v v' hcs (fun hm => hu (List.mem_cons_of_mem _ hm))
        (fun hm => hu' (List.mem_cons_of_mem _ hm))
      exact ⟨by rw [hc, this.1], this.2⟩

/-- Distinct counters give distinct slot identifiers, whatever the
dependency names: the decimal digits after the final underscore recover
the counter. -/
theorem slotName_counter_inj {a b : String} {m k : Nat}
    (h : slotName a m = slotName b k) : m = k := by
  have hdata := congrArg String.data h
  have hrepr : ∀ (s : String) (n : Nat),
      (slotName s n).data = ('_' :: s.data ++ ['_']) ++ Nat.toDigits 10 n := by
    intro s n
    show ("_" ++ s ++ "_" ++ Nat.repr n).data = _
    rw [String.data_append, String.data_append, String.data_append]
    rfl
  rw [hrepr, hrepr] at hdata
  have hrev := congrArg List.reverse hdata
  simp only [List.reverse_append, List.reverse_cons, List.reverse_nil,
    List.nil_append, List.cons_append, List.append_assoc, List.singleton_append] at hrev
  have hsep := sep_first_inj (Nat.toDigits 10 m).reverse (Nat.toDigits 10 k).reverse _ _
    (by simpa using hrev)
    (fun hm => toDigits_no_underscore m (List.mem_reverse.mp hm))
    (fun hm => toDigits_no_underscore k (List.mem_reverse.mp hm))
  exact toDigits_inj m k (List.reverse_inj.mp hsep.1)

/-! ### Association-list facts -/

theorem alookup_aset_self {α : Type} (ps : List (String × α)) (nm : String) (v : α) :
    alookup (aset ps nm v) nm = some v := by
  induction ps with
  | nil => simp [aset, alookup]
  | cons e t ih =>
    obtain ⟨k, w⟩ := e
    by_cases h : k = nm
    · simp [aset, alookup, h]
    · simp [aset, alookup, h, ih]

theorem alookup_aset_ne {α : Type} (ps : List (String × α)) {nm nm' : String} (v : α)
    (h : nm ≠ nm') : alookup (aset ps nm v) nm' = alookup ps nm' := by
  induction ps with
  | nil => simp [aset, alookup, h]
  | cons e t ih =>
    obtain ⟨k, w⟩ := e
    by_cases hk : k = nm
    · subst hk
      simp [aset, alookup, h]
    · simp [aset, alookup, hk, ih]

theorem mem_of_alookup {α : Type} {ps : List (String × α)} {nm : String} {v : α}
    (h : alookup ps nm = some v) : (nm, v) ∈ ps := by
  induction ps with
  | nil => simp [alookup] at h
  | cons e t ih =>
    obtain ⟨k, w⟩ := e
    by_cases hk : k = nm
    · subst hk
      have hv : w = v := by simpa [alookup] using h
      subst hv
      exact List.mem_cons_self _ _
    · simp only [alookup, if_neg hk] at h
      exact List.mem_cons_of_mem _ (ih h)

theorem alookup_isSome_iff {α : Type} {ps : List (String × α)} {nm : String} :
    (alookup ps nm).isSome = true ↔ nm ∈ ps.map Prod.fst := by
  induction ps with
  | nil => simp [alookup]
  | cons e t ih =>
    obtain ⟨k, w⟩ := e
    by_cases hk : k = nm
    · subst hk
      simp [alookup]
    · simp only [alookup, if_neg hk, List.map_cons, List.mem_cons, ih]
      constructor
      · exact Or.inr
      · rintro (rfl | hm)
        · exact absurd rfl hk
        · exact hm

theorem partsKeys_aset {ps : Parts} {nm : String} (v : PartInfo)
    (h : (alookup ps nm).isSome = true) : partsKeys (aset ps nm v) = partsKeys ps := by
  induction ps with
  | nil => simp [alookup] at h
  | cons e t ih =>
    obtain ⟨k, w⟩ := e
    by_cases hk : k = nm
    · simp [aset, hk, partsKeys]
    · simp only [alookup, if_neg hk] at h
      simp [aset, hk, partsKeys] at ih ⊢
      exact ih h

/-! ### Slot-block facts -/

theorem slotsFrom_length (b : Nat) (l : List String) :
    (slotsFrom b l).length = l.length := by
  induction l generalizing b with
  | nil => rfl
  | cons d ds ih => simp [slotsFrom, ih]

theorem slotsFrom_mem {b : Nat} {l : List String} :
    ∀ s ∈ slotsFrom b l, ∃ d m, s = slotName d m ∧ b ≤ m ∧ m < b + l.length := by
  induction l generalizing b with
  | nil => simp [slotsFrom]
  | cons d ds ih =>
    intro s hs
    rcases List.mem_cons.mp hs with hs | hs
    · exact ⟨d, b, hs, le_refl b, by simp⟩
    · obtain ⟨d', m, he, hb, hm⟩ := ih s hs
      exact ⟨d', m, he, by omega, by simpa [Nat.add_assoc, Nat.add_comm 1] using by omega⟩

theorem slotsFrom_nodup (b : Nat) (l : List String) : (slotsFrom b l).Nodup := by
  induction l generalizing b with
  | nil => simp [slotsFrom]
  | cons d ds ih =>
    simp only [slotsFrom, List.nodup_cons]
    refine ⟨?_, ih (b + 1)⟩
    intro hmem
    obtain ⟨d', m, he, hb, _⟩ := slotsFrom_mem _ hmem
    have := slotName_counter_inj he
    omega

theorem flatten_of_empty {ps : Parts} (h : ∀ e ∈ ps, e.2.dep_state = []) :
    flattenSlots ps = [] := by
  induction ps with
  | nil => rfl
  | cons e t ih =>
    show e.2.dep_state ++ flattenSlots t = []
    rw [h e (List.mem_cons_self e t), ih (fun e' he' => h e' (List.mem_cons_of_mem _ he'))]
    rfl

theorem flatten_aset {ps : Parts} {nm : String} {p0 : PartInfo}
    (hnd : (partsKeys ps).Nodup) (hmem : alookup ps nm = some p0) (p1 : PartInfo) :
    ∃ A B, flattenSlots ps = A ++ (p0.dep_state ++ B) ∧
      flattenSlots (aset ps nm p1) = A ++ (p1.dep_state ++ B) := by
  induction ps with
  | nil => simp [alookup] at hmem
  | cons e t ih =>
    obtain ⟨k, w⟩ := e
    by_cases hk : k = nm
    · subst hk
      have hv : w = p0 := by simpa [alookup] using hmem
      subst hv
      refine ⟨[], flattenSlots t, ?_, ?_⟩
      · simp [flattenSlots]
      · simp [aset, flattenSlots]
    · simp only [alookup, if_neg hk] at hmem
      have hnd' : (partsKeys t).Nodup := by
        simpa [partsKeys] using hnd.of_cons
      obtain ⟨A, B, h1, h2⟩ := ih hnd' hmem
      refine ⟨w.dep_state ++ A, B, ?_, ?_⟩
      · show w.dep_state ++ flattenSlots t = _
        rw [h1]
        simp
      · show flattenSlots (aset ((k, w) :: t) nm p1) = _
        simp only [aset, if_neg hk]
        show w.dep_state ++ flattenSlots (aset t nm p1) = _
        rw [h2]
        simp

theorem nodup_sandwich {A B S : List String} (hAB : (A ++ B).Nodup) (hS : S.Nodup)
    (hfresh : ∀ s ∈ S, s ∉ A ++ B) : (A ++ (S ++ B)).Nodup := by
  rw [List.nodup_append] at hAB
  obtain ⟨hA, hB, hdisj⟩ := hAB
  rw [List.nodup_append, List.nodup_append]
  refine ⟨hA, ⟨hS, hB, ?_⟩, ?_⟩
  · intro s hs
    exact fun hb => hfresh s hs (List.mem_append_right _ hb)
  · intro a ha
    rw [List.mem_append]
    rintro (hs | hb)
    · exact hfresh a hs (List.mem_append_left _ ha)
    · exact hdisj ha hb

theorem filter_nonempty_any (f : String → Bool) (l : List String) :
    (!(l.filter f).isEmpty) = l.any f := by
  induction l with
  | nil => rfl
  | cons x xs ih =>
    by_cases h : f x
    · simp [List.filter_cons, h]
    · simp [List.filter_cons, h, ih]

theorem any_congr_mem {f g : String → Bool} {l : List String}
    (h : ∀ x ∈ l, f x = g x) : l.any f = l.any g := by
  induction l with
  | nil => rfl
  | cons x xs ih =>
    simp only [List.any_cons, h x (List.mem_cons_self x xs)]
    rw [ih (fun y hy => h y (List.mem_cons_of_mem _ hy))]

/-! ### `analyze` correctness -/

theorem allocSlots_ok {ps : Parts} : ∀ (deps : List String) (n : Nat),
    (∀ d ∈ deps, (alookup ps d).isSome = true) →
    allocSlots ps deps n =
      .ok (slotsFrom n (deps.filter (statefulAt ps)),
           n + (deps.filter (statefulAt ps)).length) := by
  intro deps
  induction deps with
  | nil =>
    intro n h
    simp [allocSlots, slotsFrom]
  | cons d ds ih =>
    intro n h
    obtain ⟨dp, hdp⟩ := Option.isSome_iff_exists.mp (h d (List.mem_cons_self d ds))
    have htail : ∀ x ∈ ds, (alookup ps x).isSome = true :=
      fun x hx => h x (List.mem_cons_of_mem _ hx)
    have hsA : statefulAt ps d = dp.stateful := by
      unfold statefulAt
      rw [hdp]
    rw [allocSlots, hdp]
    dsimp only
    by_cases hsf : dp.stateful
    · rw [if_pos hsf, ih (n + 1) htail]
      dsimp only
      have hkeep : (d :: ds).filter (statefulAt ps) = d :: ds.filter (statefulAt ps) := by
        simp [List.filter_cons, hsA, hsf]
      rw [hkeep]
      simp only [slotsFrom, List.length_cons]
      have harith : n + 1 + (ds.filter (statefulAt ps)).length
          = n + ((ds.filter (statefulAt ps)).length + 1) := by omega
      rw [harith]
    · rw [if_neg hsf, ih n htail]
      have hdrop : (d :: ds).filter (statefulAt ps) = ds.filter (statefulAt ps) := by
        simp [List.filter_cons, hsA, hsf]
      rw [hdrop]

theorem analyzeGo_master {ps0 : Parts} {order : List String} (hok : AOK ps0 order) :
    ∀ (rest done : List String) (ps : Parts) (n : Nat),
      order = done ++ rest → AInv ps0 done ps n →
      ∃ ps1 n1, analyzeGo ps rest n = .ok ps1 ∧ AInv ps0 (done ++ rest) ps1 n1 := by
  intro rest
  induction rest with
  | nil =>
    intro done ps n _ hinv
    exact ⟨ps, n, rfl, by simpa using hinv⟩
  | cons nm rest ih =>
    intro done ps n horder hinv
    obtain ⟨hkeys, hunproc, hproc, hnodupS, hbound⟩ := hinv
    have hnmord : nm ∈ order := by
      rw [horder]
      exact List.mem_append_right _ (List.mem_cons_self _ _)
    have hnmdone : nm ∉ done := by
      intro hc
      have hnd := hok.nodupOrd
      rw [horder] at hnd
      exact (List.nodup_append.mp hnd).2.2 hc (List.mem_cons_self _ _)
    obtain ⟨p0, hp0⟩ := Option.isSome_iff_exists.mp (hok.dom nm hnmord)
    have hlook : alookup ps nm = some p0 := by rw [hunproc nm hnmdone]; exact hp0
    have hinit := hok.init (nm, p0) (mem_of_alookup hp0)
    have hidxnm : idx order nm = done.length := by
      rw [horder, idx_append_right _ hnmdone]
      simp [idx]
    have hdeps_done : ∀ d ∈ p0.deps, d ∈ done := by
      intro d hd
      obtain ⟨_, hdord, hlt⟩ := hok.topo (nm, p0) (mem_of_alookup hp0) d hd
      rw [hidxnm] at hlt
      by_contra hnd
      rw [horder, idx_append_right _ hnd] at hlt
      omega
    have hdeps_ne : ∀ d ∈ p0.deps, d ≠ nm :=
      fun d hd he => hnmdone (he ▸ hdeps_done d hd)
    have hdeps_some : ∀ d ∈ p0.deps, (alookup ps d).isSome = true := by
      intro d hd
      obtain ⟨_, hdord, _⟩ := hok.topo (nm, p0) (mem_of_alookup hp0) d hd
      have h0 := hok.dom d hdord
      rw [alookup_isSome_iff] at h0 ⊢
      show d ∈ partsKeys ps
      rw [hkeys]
      exact h0
    have halloc := @allocSlots_ok ps p0.deps n hdeps_some
    have hstep : analyzeStep ps nm n = .ok
        (aset ps nm
          { p0 with
            dep_state := slotsFrom n (p0.deps.filter (statefulAt ps))
            stateful := if !p0.state.isEmpty ||
                !(slotsFrom n (p0.deps.filter (statefulAt ps))).isEmpty then true
              else p0.stateful },
         n + (p0.deps.filter (statefulAt ps)).length) := by
      unfold analyzeStep
      rw [hlook]
      dsimp only
      rw [halloc]
    set fdeps := p0.deps.filter (statefulAt ps) with hfdeps
    set p1 : PartInfo :=
      { p0 with
        dep_state := slotsFrom n fdeps
        stateful := if !p0.state.isEmpty || !(slotsFrom n fdeps).isEmpty then true
          else p0.stateful } with hp1def
    -- frame facts for the updated table
    have hstA : ∀ d, d ≠ nm → statefulAt (aset ps nm p1) d = statefulAt ps d := by
      intro d hd
      unfold statefulAt
      rw [alookup_aset_ne _ _ (fun he => hd he.symm)]
    have hkeys' : partsKeys (aset ps nm p1) = partsKeys ps0 := by
      rw [partsKeys_aset _ (by rw [hlook]; rfl), hkeys]
    have hslotsE : (slotsFrom n fdeps).isEmpty = fdeps.isEmpty := by
      cases fdeps <;> simp [slotsFrom]
    -- invariant after processing nm
    have hinvNew : AInv ps0 (done ++ [nm]) (aset ps nm p1) (n + fdeps.length) := by
      refine ⟨hkeys', ?_, ?_, ?_, ?_⟩
      · -- untouched entries
        intro nm' hnm'
        have h1 : nm' ∉ done := fun hc => hnm' (List.mem_append_left _ hc)
        have h2 : nm' ≠ nm := fun hc => hnm' (by simp [hc])
        rw [alookup_aset_ne _ _ (fun he => h2 he.symm)]
        exact hunproc nm' h1
      · -- processed entries
        intro nm' p0' hp0' hmem
        rcases List.mem_append.mp hmem with hmem | hmem
        · -- previously processed: untouched by this step
          have hne : nm' ≠ nm := fun hc => hnmdone (hc ▸ hmem)
          obtain ⟨q, hq, ha, hs, hd, hr, hsf, hdep, b, hds, hb⟩ := hproc nm' p0' hp0' hmem
          have hcongr : ∀ x ∈ p0'.deps, statefulAt (aset ps nm p1) x = statefulAt ps x := by
            intro x hx
            exact hstA x (fun he => hnmdone (he ▸ hdep x hx))
          refine ⟨q, ?_, ha, hs, hd, hr, ?_, ?_, b, ?_, ?_⟩
          · rw [alookup_aset_ne _ _ (fun he => hne he.symm)]
            exact hq
          · rw [hsf, any_congr_mem hcongr]
          · exact fun x hx => List.mem_append_left _ (hdep x hx)
          · rw [hds, List.filter_congr (fun x hx => (hcongr x hx).symm)]
          · rw [List.filter_congr (fun x hx => (hcongr x hx).symm)] at hb
            omega
        · -- the newly processed nm
          have hnm' : nm' = nm := by simpa using hmem
          subst hnm'
          have hp0'' : p0' = p0 := by
            rw [hp0'] at hp0
            exact Option.some.inj hp0
          subst hp0''
          have hcongr : ∀ x ∈ p0'.deps, statefulAt (aset ps nm' p1) x = statefulAt ps x :=
            fun x hx => hstA x (hdeps_ne x hx)
          refine ⟨p1, alookup_aset_self _ _ _, rfl, rfl, rfl, rfl, ?_, ?_, n, ?_, ?_⟩
          · -- the stateful flag becomes the final formula
            have hinit2 : p0'.stateful = !p0'.state.isEmpty := hinit.2
            show (if (!p0'.state.isEmpty || !(slotsFrom n fdeps).isEmpty) = true then true
                else p0'.stateful) = _
            rw [any_congr_mem hcongr, hslotsE, hfdeps, filter_nonempty_any]
            cases hc : (!p0'.state.isEmpty || p0'.deps.any (statefulAt ps)) with
            | false =>
              have h1 : (!p0'.state.isEmpty) = false := by
                cases h' : (!p0'.state.isEmpty)
                · rfl
                · rw [h'] at hc
                  simp at hc
              simp [hinit2, h1]
            | true => simp
          · exact fun x hx => List.mem_append_left _ (hdeps_done x hx)
          · show slotsFrom n fdeps = _
            rw [hfdeps, List.filter_congr (fun x hx => (hcongr x hx).symm)]
          · rw [← List.filter_congr (fun x hx => (hcongr x hx).symm), ← hfdeps]
      · -- the slot pool stays duplicate-free
        obtain ⟨A, B, hAB, hAB'⟩ := flatten_aset (hkeys ▸ hok.nodupKeys) hlook p1
        rw [hinit.1] at hAB
        simp only [List.nil_append] at hAB
        rw [hAB']
        have hABnd : (A ++ B).Nodup := hAB ▸ hnodupS
        refine nodup_sandwich hABnd (slotsFrom_nodup n fdeps) ?_
        intro s hs hsAB
        obtain ⟨d, m, he, hge, _⟩ := slotsFrom_mem s hs
        obtain ⟨d', m', he', hlt⟩ := hbound s (hAB ▸ hsAB)
        have : m = m' := slotName_counter_inj (he ▸ he')
        omega
      · -- all counters lie below the advanced counter
        intro s hs
        obtain ⟨A, B, hAB, hAB'⟩ := flatten_aset (hkeys ▸ hok.nodupKeys) hlook p1
        rw [hinit.1] at hAB
        simp only [List.nil_append] at hAB
        rw [hAB'] at hs
        rcases List.mem_append.mp hs with hs | hs
        · obtain ⟨d, m, he, hlt⟩ := hbound s (by rw [hAB]; exact List.mem_append_left _ hs)
          exact ⟨d, m, he, by omega⟩
        · rcases List.mem_append.mp hs with hs | hs
          · obtain ⟨d, m, he, _, hlt⟩ := slotsFrom_mem s hs
            exact ⟨d, m, he, hlt⟩
          · obtain ⟨d, m, he, hlt⟩ := hbound s (by rw [hAB]; exact List.mem_append_right _ hs)
            exact ⟨d, m, he, by omega⟩
    obtain ⟨ps1, n1, hgo, hinv1⟩ :=
      ih (done ++ [nm]) (aset ps nm p1) (n + fdeps.length) (by rw [horder]; simp) hinvNew
    refine ⟨ps1, n1, ?_, ?_⟩
    · rw [analyzeGo, hstep]
      exact hgo
    · have : done ++ [nm] ++ rest = done ++ nm :: rest := by simp
      rw [← this]
      exact hinv1

theorem analyze_master {ps0 : Parts} {order : List String} (hok : AOK ps0 order) :
    ∃ ps1, analyze ps0 order = .ok ps1 ∧
      partsKeys ps1 = partsKeys ps0 ∧
      (flattenSlots ps1).Nodup ∧
      ∀ nm p0, alookup ps0 nm = some p0 →
        ∃ p1, alookup ps1 nm = some p1 ∧
          p1.args = p0.args ∧ p1.state = p0.state ∧ p1.deps = p0.deps ∧
          p1.returns = p0.returns ∧
          p1.stateful = (!p0.state.isEmpty || p0.deps.any (statefulAt ps1)) ∧
          ∃ b, p1.dep_state = slotsFrom b (p0.deps.filter (statefulAt ps1)) := by
  have hinv0 : AInv ps0 [] ps0 0 := by
    refine ⟨rfl, fun nm _ => rfl, ?_, ?_, ?_⟩
    · intro nm p0 _ hmem
      exact absurd hmem (List.not_mem_nil nm)
    · rw [flatten_of_empty (fun e he => (hok.init e he).1)]
      exact List.nodup_nil
    · intro s hs
      rw [flatten_of_empty (fun e he => (hok.init e he).1)] at hs
      exact absurd hs (List.not_mem_nil s)
  obtain ⟨ps1, n1, hgo, hinv⟩ := analyzeGo_master hok order [] ps0 0 (by simp) hinv0
  obtain ⟨hkeys, hunproc, hproc, hnodupS, _⟩ := hinv
  refine ⟨ps1, hgo, hkeys, hnodupS, ?_⟩
  intro nm p0 hp0
  by_cases hord : nm ∈ order
  · obtain ⟨p1, h1, ha, hs, hd, hr, hsf, _, b, hds, _⟩ :=
      hproc nm p0 hp0 (by simpa using hord)
    exact ⟨p1, h1, ha, hs, hd, hr, hsf, b, hds⟩
  · have hl : alookup ps1 nm = some p0 := by
      rw [hunproc nm (by simpa using hord)]
      exact hp0
    have hdeps : p0.deps = [] := by
      cases hde : p0.deps with
      | nil => rfl
      | cons d ds =>
        obtain ⟨hno, _, _⟩ := hok.topo (nm, p0) (mem_of_alookup hp0) d
          (by rw [hde]; exact List.mem_cons_self _ _)
        exact absurd hno hord
    have hinit2 : p0.stateful = !p0.state.isEmpty := (hok.init (nm, p0) (mem_of_alookup hp0)).2
    have hinit1 : p0.dep_state = [] := (hok.init (nm, p0) (mem_of_alookup hp0)).1
    refine ⟨p0, hl, rfl, rfl, rfl, rfl, ?_, 0, ?_⟩
    · rw [hdeps, hinit2]
      simp
    · rw [hdeps, hinit1]
      simp [slotsFrom]

theorem lookup_back {ps0 ps1 : Parts} (hkeys : partsKeys ps1 = partsKeys ps0)
    {nm : String} {p1 : PartInfo} (hp1 : alookup ps1 nm = some p1) :
    ∃ p0, alookup ps0 nm = some p0 := by
  have h1 : (alookup ps1 nm).isSome = true := by rw [hp1]; rfl
  have h0 : (alookup ps0 nm).isSome = true := by
    rw [alookup_isSome_iff]
    show nm ∈ partsKeys ps0
    rw [← hkeys]
    exact alookup_isSome_iff.mp h1
  exact Option.isSome_iff_exists.mp h0

/-- Claim C2: for every table of tracked definitions and every
topological processing order (exactly what an acyclic program provides),
after `analyze` a definition is stateful iff it has a nonempty own-state
set or some call site whose callee's final flag is stateful — the final
flag being the transitive notion, this makes statefulness transitive
through calls even for definitions with no own state. -/
theorem c2_stateful_iff {ps0 : Parts} {order : List String} (hok : AOK ps0 order) :
    ∃ ps1, analyze ps0 order = .ok ps1 ∧
      ∀ nm p1, alookup ps1 nm = some p1 →
        (p1.stateful = true ↔
          p1.state ≠ [] ∨ ∃ d ∈ p1.deps, statefulAt ps1 d = true) := by
  obtain ⟨ps1, hga, hkeys, _, hmain⟩ := analyze_master hok
  refine ⟨ps1, hga, ?_⟩
  intro nm p1 hp1
  obtain ⟨p0, hp0⟩ := lookup_back hkeys hp1
  obtain ⟨p1', h1, _, hs, hd, _, hsf, _⟩ := hmain nm p0 hp0
  have hpe : p1' = p1 := by
    rw [h1] at hp1
    exact Option.some.inj hp1
  subst hpe
  rw [hsf, ← hs, ← hd]
  constructor
  · intro h
    rcases Bool.or_eq_true_iff.mp h with h | h
    · left
      intro hc
      rw [hc] at h
      simp at h
    · right
      simpa using List.any_eq_true.mp h
  · intro h
    rcases h with h | h
    · apply Bool.or_eq_true_iff.mpr
      left
      cases he : p1'.state with
      | nil => exact absurd he h
      | cons x xs => simp [he]
    · apply Bool.or_eq_true_iff.mpr
      right
      exact List.any_eq_true.mpr (by simpa using h)

/-- Claim C2 witness: the three-definition chain, analyzed in the order
`inner`, `mid`, `outer`. -/
theorem c2_witness :
    AOK (track_Program pChain) ["inner", "mid", "outer"] ∧
    ∃ ps1, analyze (track_Program pChain) ["inner", "mid", "outer"] = .ok ps1 ∧
      ∀ nm p1, alookup ps1 nm = some p1 →
        (p1.stateful = true ↔
          p1.state ≠ [] ∨ ∃ d ∈ p1.deps, statefulAt ps1 d = true) := by
  have hok : AOK (track_Program pChain) ["inner", "mid", "outer"] :=
    ⟨by decide, by decide, by decide, by decide, by decide⟩
  exact ⟨hok, c2_stateful_iff hok⟩

/-- Claim C6: after resolution every definition carries exactly one slot
per call site with a (finally) stateful callee — a block of consecutively
numbered slot names following call-site encounter order — and no two call
sites anywhere in the table share a slot identifier. -/
theorem c6_slot_allocation {ps0 : Parts} {order : List String} (hok : AOK ps0 order) :
    ∃ ps1, analyze ps0 order = .ok ps1 ∧
      (∀ nm p1, alookup ps1 nm = some p1 →
        p1.dep_state.length = (p1.deps.filter (statefulAt ps1)).length ∧
        ∃ b, p1.dep_state = slotsFrom b (p1.deps.filter (statefulAt ps1))) ∧
      (flattenSlots ps1).Nodup := by
  obtain ⟨ps1, hga, hkeys, hnodup, hmain⟩ := analyze_master hok
  refine ⟨ps1, hga, ?_, hnodup⟩
  intro nm p1 hp1
  obtain ⟨p0, hp0⟩ := lookup_back hkeys hp1
  obtain ⟨p1', h1, _, _, hd, _, _, b, hds⟩ := hmain nm p0 hp0
  have hpe : p1' = p1 := by
    rw [h1] at hp1
    exact Option.some.inj hp1
  subst hpe
  rw [← hd] at hds
  exact ⟨by rw [hds, slotsFrom_length], b, hds⟩

/-- Claim C6 witness: two definitions `F` and `G` both calling the
stateful `S` receive the distinct slots `_S_0` and `_S_1`. -/
theorem c6_witness :
    AOK (track_Program pSFG) ["S", "F", "G"] ∧
    ∃ ps1, analyze (track_Program pSFG) ["S", "F", "G"] = .ok ps1 ∧
      (∀ nm p1, alookup ps1 nm = some p1 →
        p1.dep_state.length = (p1.deps.filter (statefulAt ps1)).length ∧
        ∃ b, p1.dep_state = slotsFrom b (p1.deps.filter (statefulAt ps1))) ∧
      (flattenSlots ps1).Nodup := by
  have hok : AOK (track_Program pSFG) ["S", "F", "G"] :=
    ⟨by decide, by decide, by decide, by decide, by decide⟩
  exact ⟨hok, c6_slot_allocation hok⟩

/-! ### State unpack / repack -/

theorem alookup_bindAll_notmem {pairs : List (String × Value)} {k : String}
    (h : k ∉ pairs.map Prod.fst) (env : Env) :
    alookup (bindAll env pairs) k = alookup env k := by
  induction pairs generalizing env with
  | nil => rfl
  | cons kv t ih =>
    have hk : kv.1 ≠ k := by
      intro hc
      exact h (by simp [hc])
    have ht : k ∉ t.map Prod.fst := fun hc => h (by simp [hc])
    show alookup (bindAll (aset env kv.1 kv.2) t) k = _
    rw [ih ht, alookup_aset_ne _ _ hk]

theorem alookup_bindAll_mem {pairs : List (String × Value)} {k : String} {v : Value}
    (hnd : (pairs.map Prod.fst).Nodup) (hmem : (k, v) ∈ pairs) (env : Env) :
    alookup (bindAll env pairs) k = some v := by
  induction pairs generalizing env with
  | nil => cases hmem
  | cons kv t ih =>
    rcases List.mem_cons.mp hmem with hmem | hmem
    · subst hmem
      have hnot : k ∉ t.map Prod.fst := by
        simp only [List.map_cons, List.nodup_cons] at hnd
        exact hnd.1
      show alookup (bindAll (aset env k v) t) k = _
      rw [alookup_bindAll_notmem hnot, alookup_aset_self]
    · have hnd' : (t.map Prod.fst).Nodup := by
        simp only [List.map_cons, List.nodup_cons] at hnd
        exact hnd.2
      exact ih hnd' hmem _

theorem bindTgts_pairs :
    ∀ (pairs : List (String × Value)) (env : Env),
      bindTgts env (pairs.map (fun kv => Tgt.name kv.1)) (pairs.map Prod.snd) =
        .ok (bindAll env pairs) := by
  intro pairs
  induction pairs with
  | nil => intro env; rfl
  | cons kv t ih =>
    intro env
    show bindTgts env (Tgt.name kv.1 :: t.map _) (kv.2 :: t.map Prod.snd) = _
    rw [bindTgts, bindTgt]
    exact ih (aset env kv.1 kv.2)

theorem evalExprs_consts (call : String → List Value → Except PyErr Value) (env : Env) :
    ∀ vs : List Value, evalExprs call env (vs.map Expr.const) = .ok vs := by
  intro vs
  induction vs with
  | nil => rfl
  | cons v t ih =>
    show evalExprs call env (Expr.const v :: t.map Expr.const) = _
    rw [evalExprs, evalExpr, ih]

theorem evalExprs_names (call : String → List Value → Except PyErr Value) (env : Env) :
    ∀ pairs : List (String × Value),
      (∀ kv ∈ pairs, alookup env kv.1 = some kv.2) →
      evalExprs call env (pairs.map (fun kv => Expr.name kv.1)) = .ok (pairs.map Prod.snd) := by
  intro pairs
  induction pairs with
  | nil => intro _; rfl
  | cons kv t ih =>
    intro h
    show evalExprs call env (Expr.name kv.1 :: t.map _) = _
    rw [evalExprs, evalExpr, h kv (List.mem_cons_self kv t),
      ih (fun kv' h' => h kv' (List.mem_cons_of_mem _ h'))]
    rfl

theorem zip_const_mem {l : List String} {v : String} (h : v ∈ l) (c : Value) :
    (v, c) ∈ l.zip (l.map fun _ => c) := by
  induction l with
  | nil => cases h
  | cons x xs ih =>
    rcases List.mem_cons.mp h with h | h
    · subst h
      exact List.mem_cons_self _ _
    · exact List.mem_cons_of_mem _ (ih h)

theorem zip_map_fst {l : List String} {v : List Value} (h : l.length = v.length) :
    (l.zip v).map Prod.fst = l := by
  induction l generalizing v with
  | nil => simp
  | cons x xs ih =>
    cases v with
    | nil => simp at h
    | cons y ys =>
      simp only [List.zip_cons_cons, List.map_cons]
      rw [ih (by simpa using h)]

theorem zip_append_maps {a b : List String} (f g : String → Value) :
    (a ++ b).zip (a.map f ++ b.map g) = a.zip (a.map f) ++ b.zip (b.map g) := by
  induction a with
  | nil => simp
  | cons x xs ih => simp [ih]

theorem evalExpr_defaults (call : String → List Value → Except PyErr Value) (env : Env)
    (vars parts : List String) :
    evalExpr call env (defaultsExprU vars parts) =
      .ok (packVal (vars.map (fun _ => Value.int 0) ++ parts.map (fun _ => Value.none))) := by
  have hrw : vars.map (fun _ => Expr.const (.int 0)) ++ parts.map (fun _ => Expr.const .none)
      = (vars.map (fun _ => Value.int 0) ++ parts.map (fun _ => Value.none)).map Expr.const := by
    simp [List.map_map]
  unfold defaultsExprU
  rw [hrw]
  cases hV : vars.map (fun _ => Value.int 0) ++ parts.map (fun _ => Value.none) with
  | nil => simp [packVal, evalExpr, evalExprs]
  | cons d ds =>
    cases ds with
    | nil => simp [packVal, evalExpr]
    | cons d2 ds2 =>
      show evalExpr call env (.tuple ((d :: d2 :: ds2).map Expr.const)) = _
      rw [evalExpr, evalExprs_consts]
      rfl

theorem bindTgt_mkTgtList {ns : List String} {V : List Value} {env : Env}
    (hne : ns ≠ []) (hlen : ns.length = V.length) :
    bindTgt env (mkTgtList ns) (packVal V) = .ok (bindAll env (ns.zip V)) := by
  cases ns with
  | nil => exact absurd rfl hne
  | cons n rest =>
    cases rest with
    | nil =>
      cases V with
      | nil => simp at hlen
      | cons v vrest =>
        cases vrest with
        | nil =>
          show bindTgt env (Tgt.name n) v = _
          rw [bindTgt]
          rfl
        | cons v2 vr2 => simp at hlen
    | cons m rest2 =>
      cases V with
      | nil => simp at hlen
      | cons v vrest =>
        cases vrest with
        | nil => simp at hlen
        | cons v2 vr2 =>
          show bindTgt env (Tgt.tup ((n :: m :: rest2).map .name)) (.tuple (v :: v2 :: vr2)) = _
          rw [bindTgt]
          have hb := bindTgts_pairs ((n :: m :: rest2).zip (v :: v2 :: vr2)) env
          have hpairs : ((n :: m :: rest2).zip (v :: v2 :: vr2)).map (fun kv => Tgt.name kv.1)
              = (n :: m :: rest2).map Tgt.name := by
            have hcomp : ((n :: m :: rest2).zip (v :: v2 :: vr2)).map (fun kv => Tgt.name kv.1)
                = (((n :: m :: rest2).zip (v :: v2 :: vr2)).map Prod.fst).map Tgt.name := by
              rw [List.map_map]
              rfl
            rw [hcomp, zip_map_fst hlen]
          have hsnd : ((n :: m :: rest2).zip (v :: v2 :: vr2)).map Prod.snd
              = v :: v2 :: vr2 := List.map_snd_zip _ _ (by omega)
          rw [hpairs, hsnd] at hb
          exact hb

theorem evalExpr_mkNamesExpr {ns : List String} {V : List Value} {env : Env}
    (call : String → List Value → Except PyErr Value)
    (hne : ns ≠ []) (hlen : ns.length = V.length)
    (hlook : ∀ kv ∈ ns.zip V, alookup env kv.1 = some kv.2) :
    evalExpr call env (mkNamesExpr ns) = .ok (packVal V) := by
  cases ns with
  | nil => exact absurd rfl hne
  | cons n rest =>
    cases rest with
    | nil =>
      cases V with
      | nil => simp at hlen
      | cons v vrest =>
        cases vrest with
        | nil =>
          show evalExpr call env (.name n) = _
          rw [evalExpr, hlook (n, v) (by simp)]
          rfl
        | cons v2 vr2 => simp at hlen
    | cons m rest2 =>
      cases V with
      | nil => simp at hlen
      | cons v vrest =>
        cases vrest with
        | nil => simp at hlen
        | cons v2 vr2 =>
          show evalExpr call env (.tuple ((n :: m :: rest2).map .name)) = _
          rw [evalExpr]
          have hnames : ((n :: m :: rest2).zip (v :: v2 :: vr2)).map (fun kv => Expr.name kv.1)
              = (n :: m :: rest2).map Expr.name := by
            have hcomp : ((n :: m :: rest2).zip (v :: v2 :: vr2)).map (fun kv => Expr.name kv.1)
                = (((n :: m :: rest2).zip (v :: v2 :: vr2)).map Prod.fst).map Expr.name := by
              rw [List.map_map]
              rfl
            rw [hcomp, zip_map_fst hlen]
          have hsnd : ((n :: m :: rest2).zip (v :: v2 :: vr2)).map Prod.snd
              = v :: v2 :: vr2 := List.map_snd_zip _ _ (by omega)
          have he := evalExprs_names call env ((n :: m :: rest2).zip (v :: v2 :: vr2)) hlook
          rw [hnames, hsnd] at he
          rw [he]
          rfl

theorem unpack_defaults {vars parts : List String} {env : Env}
    (call : String → List Value → Except PyErr Value)
    (hne : vars ++ parts ≠ []) (hnd : (vars ++ parts).Nodup)
    (hst : alookup env "state" = some Value.none) :
    ∃ env', execStmt call env (unpack_state vars parts) = .ok (env', Option.none) ∧
      (∀ v ∈ vars, alookup env' v = some (.int 0)) ∧
      (∀ q ∈ parts, alookup env' q = some Value.none) := by
  have hlen : (vars ++ parts).length
      = (vars.map (fun _ => Value.int 0) ++ parts.map (fun _ => Value.none)).length := by
    simp
  have h1 : evalExpr call env (Expr.name "state") = .ok Value.none := by
    rw [evalExpr, hst]
  have heval : evalExpr call env
      (.ifExp (.name "state") (.name "state") (defaultsExprU vars parts))
      = .ok (packVal (vars.map (fun _ => Value.int 0) ++ parts.map (fun _ => Value.none))) := by
    rw [evalExpr, h1]
    show (if truthy Value.none = true then _ else _) = _
    rw [if_neg (by simp [truthy]), evalExpr_defaults]
  refine ⟨bindAll env ((vars ++ parts).zip
    (vars.map (fun _ => Value.int 0) ++ parts.map (fun _ => Value.none))), ?_, ?_, ?_⟩
  · show execStmt call env (.assign (mkTgtList (vars ++ parts)) _) = _
    rw [execStmt, heval]
    show (match bindTgt env (mkTgtList (vars ++ parts)) _ with
      | Except.error er => Except.error er
      | Except.ok env' => Except.ok (env', Option.none)) = _
    rw [bindTgt_mkTgtList hne hlen]
  · intro v hv
    have hmem : (v, Value.int 0) ∈ (vars ++ parts).zip
        (vars.map (fun _ => Value.int 0) ++ parts.map (fun _ => Value.none)) := by
      rw [zip_append_maps]
      exact List.mem_append_left _ (zip_const_mem hv _)
    exact alookup_bindAll_mem (by rw [zip_map_fst hlen]; exact hnd) hmem env
  · intro q hq
    have hmem : (q, Value.none) ∈ (vars ++ parts).zip
        (vars.map (fun _ => Value.int 0) ++ parts.map (fun _ => Value.none)) := by
      rw [zip_append_maps]
      exact List.mem_append_right _ (zip_const_mem hq _)
    exact alookup_bindAll_mem (by rw [zip_map_fst hlen]; exact hnd) hmem env

theorem unpack_pack_roundtrip {vars parts : List String} {env : Env} {s : Value}
    (call : String → List Value → Except PyErr Value)
    (hnd : (vars ++ parts).Nodup) (htr : truthy s = true)
    (har : arityMatch (vars ++ parts) s) (hst : alookup env "state" = some s) :
    ∃ env₁ env₂, execStmt call env (unpack_state vars parts) = .ok (env₁, Option.none) ∧
      execStmt call env₁ (pack_state vars parts) = .ok (env₂, Option.none) ∧
      alookup env₂ "state" = some s := by
  obtain ⟨V, hs, hlen, hne⟩ :
      ∃ V, s = packVal V ∧ (vars ++ parts).length = V.length ∧ vars ++ parts ≠ [] := by
    unfold arityMatch at har
    cases hns : vars ++ parts with
    | nil =>
      rw [hns] at har
      obtain ⟨vs, hvs, hlen0⟩ := har
      subst hvs
      have hvnil : vs = [] := List.length_eq_zero.mp (by simpa using hlen0)
      subst hvnil
      simp [truthy] at htr
    | cons n rest =>
      cases rest with
      | nil => exact ⟨[s], rfl, by simp, by simp⟩
      | cons m r2 =>
        rw [hns] at har
        obtain ⟨vs, hvs, hlenv⟩ := har
        refine ⟨vs, ?_, hlenv.symm, by simp⟩
        subst hvs
        cases vs with
        | nil => simp at hlenv
        | cons v vr =>
          cases vr with
          | nil => simp at hlenv
          | cons v2 vr2 => rfl
  have h1 : evalExpr call env (Expr.name "state") = .ok s := by
    rw [evalExpr, hst]
  have heval : evalExpr call env
      (.ifExp (.name "state") (.name "state") (defaultsExprU vars parts)) = .ok s := by
    rw [evalExpr, h1]
    dsimp only
    rw [if_pos htr]
  have hndz : (((vars ++ parts).zip V).map Prod.fst).Nodup := by
    rw [zip_map_fst hlen]
    exact hnd
  refine ⟨bindAll env ((vars ++ parts).zip V), aset (bindAll env ((vars ++ parts).zip V)) "state" s,
    ?_, ?_, ?_⟩
  · show execStmt call env (.assign (mkTgtList (vars ++ parts)) _) = _
    rw [execStmt, heval]
    show (match bindTgt env (mkTgtList (vars ++ parts)) s with
      | Except.error er => Except.error er
      | Except.ok env' => Except.ok (env', Option.none)) = _
    rw [hs, bindTgt_mkTgtList hne hlen]
  · show execStmt call _ (.assign (.name "state") (mkNamesExpr (vars ++ parts))) = _
    have hpk : evalExpr call (bindAll env ((vars ++ parts).zip V)) (mkNamesExpr (vars ++ parts))
        = .ok (packVal V) := by
      refine evalExpr_mkNamesExpr call hne hlen ?_
      intro kv hkv
      exact alookup_bindAll_mem hndz hkv env
    rw [execStmt, hpk, ← hs]
    rfl
  · exact alookup_aset_self _ _ _

/-- Claim C7: the state lifecycle.  (a) Executing the generated unpack
statement with no carried-in state (`state` bound to `None`) gives every
own state variable the value 0 and every dep_state slot the absent value;
(b) in particular the compiled counter definition, which only reads its
own state variable `count`, yields 0 on first invocation (with the state
argument omitted or passed as `None`); (c) for every truthy state value
of the arity the unpack expects, executing unpack and then repack leaves
an equal value in `state` — a nonzero forced state survives the round
trip. -/
theorem c7_state_lifecycle :
    (∀ (vars parts : List String) (env : Env)
      (call : String → List Value → Except PyErr Value),
      vars ++ parts ≠ [] → (vars ++ parts).Nodup →
      alookup env "state" = some Value.none →
      ∃ env', execStmt call env (unpack_state vars parts) = .ok (env', Option.none) ∧
        (∀ v ∈ vars, alookup env' v = some (.int 0)) ∧
        (∀ q ∈ parts, alookup env' q = some Value.none)) ∧
    ((parse_script pCtr).map Prod.fst = .ok ctrProg ∧
      evalCall (regOf ctrProg) evalFuel "CTR" [.int 7] = .ok (.tuple [.int 0, .int 0]) ∧
      evalCall (regOf ctrProg) evalFuel "CTR" [.int 7, .none] = .ok (.tuple [.int 0, .int 0])) ∧
    (∀ (vars parts : List String) (env : Env)
      (call : String → List Value → Except PyErr Value) (s : Value),
      (vars ++ parts).Nodup → truthy s = true → arityMatch (vars ++ parts) s →
      alookup env "state" = some s →
      ∃ env₁ env₂, execStmt call env (unpack_state vars parts) = .ok (env₁, Option.none) ∧
        execStmt call env₁ (pack_state vars parts) = .ok (env₂, Option.none) ∧
        alookup env₂ "state" = some s) := by
  refine ⟨?_, ⟨rfl, rfl, rfl⟩, ?_⟩
  · intro vars parts env call hne hnd hst
    exact unpack_defaults call hne hnd hst
  · intro vars parts env call s hnd htr har hst
    exact unpack_pack_roundtrip call hnd htr har hst

/-- Claim C7 witness: the counter's own state variable defaults to 0, and
the state pair `(5, 7)` of the two-slot layout `m`, `_S_0` survives an
unpack / repack round trip. -/
theorem c7_witness :
    (∃ env', execStmt (fun _ _ => .error .unsupported) [("state", Value.none)]
        (unpack_state ["count"] []) = .ok (env', Option.none) ∧
      (∀ v ∈ ["count"], alookup env' v = some (.int 0)) ∧
      (∀ q ∈ ([] : List String), alookup env' q = some Value.none)) ∧
    (∃ env₁ env₂, execStmt (fun _ _ => .error .unsupported)
        [("state", Value.tuple [.int 5, .int 7])]
        (unpack_state ["m"] ["_S_0"]) = .ok (env₁, Option.none) ∧
      execStmt (fun _ _ => .error .unsupported) env₁ (pack_state ["m"] ["_S_0"])
        = .ok (env₂, Option.none) ∧
      alookup env₂ "state" = some (.tuple [.int 5, .int 7])) := by
  constructor
  · exact c7_state_lifecycle.1 ["count"] [] [("state", Value.none)] _
      (by decide) (by decide) rfl
  · exact c7_state_lifecycle.2.2 ["m"] ["_S_0"] [("state", Value.tuple [.int 5, .int 7])] _
      (.tuple [.int 5, .int 7]) (by decide) (by decide)
      ⟨[.int 5, .int 7], rfl, rfl⟩ rfl

/-! ### The stabilization loop on a non-stabilizing circuit -/

theorem triggerGo_alt (call : Value → Except PyErr Value) :
    ∀ (fuel : Nat) (prev st : Value) (rows : List Value) (n : Nat),
      altStepsB call fuel prev st = true →
      triggerGo call fuel prev st rows n =
        .ok ((altRun call fuel prev st).1, (altRun call fuel prev st).2.1,
             rows ++ (altRun call fuel prev st).2.2, n + fuel) := by
  intro fuel
  induction fuel with
  | zero =>
    intro prev st rows n _
    simp [triggerGo, altRun]
  | succ fuel ih =>
    intro prev st rows n h
    rw [altStepsB] at h
    cases hc : call st with
    | error e =>
      rw [hc] at h
      simp at h
    | ok v =>
      rw [hc] at h
      cases v with
      | int k => simp at h
      | bool b => simp at h
      | none => simp at h
      | tuple vs =>
        cases vs with
        | nil => simp at h
        | cons r vs2 =>
          cases vs2 with
          | nil => simp at h
          | cons s' vs3 =>
            cases vs3 with
            | cons x xs => simp at h
            | nil =>
              simp only [Bool.and_eq_true] at h
              have hpe : pyEq r prev = false := by
                have hnp := h.1
                cases hp : pyEq r prev
                · rfl
                · rw [hp] at hnp
                  simp at hnp
              have htail : altStepsB call fuel r s' = true := h.2
              rcases hAR : altRun call fuel r s' with ⟨fr, fs, rs⟩
              rw [triggerGo, hc]
              dsimp only
              rw [hpe, if_neg (by simp)]
              rw [ih r s' (rows ++ [r]) (n + 1) htail, hAR]
              rw [altRun, hc]
              dsimp only
              rw [hAR]
              have harith : n + 1 + fuel = n + (fuel + 1) := by omega
              rw [harith]
              simp

theorem altRun_length (call : Value → Except PyErr Value) :
    ∀ fuel prev st, altStepsB call fuel prev st = true →
      (altRun call fuel prev st).2.2.length = fuel := by
  intro fuel
  induction fuel with
  | zero => intro prev st _; simp [altRun]
  | succ fuel ih =>
    intro prev st h
    rw [altStepsB] at h
    cases hc : call st with
    | error e => rw [hc] at h; simp at h
    | ok v =>
      rw [hc] at h
      cases v with
      | int k => simp at h
      | bool b => simp at h
      | none => simp at h
      | tuple vs =>
        cases vs with
        | nil => simp at h
        | cons r vs2 =>
          cases vs2 with
          | nil => simp at h
          | cons s' vs3 =>
            cases vs3 with
            | cons x xs => simp at h
            | nil =>
              simp only [Bool.and_eq_true] at h
              have htail : altStepsB call fuel r s' = true := h.2
              rw [altRun, hc]
              dsimp only
              rcases hAR : altRun call fuel r s' with ⟨fr, fs, rs⟩
              have hih := ih r s' htail
              rw [hAR] at hih
              simp only [hAR]
              simpa using hih

theorem altRun_last (call : Value → Except PyErr Value) :
    ∀ fuel prev st, 1 ≤ fuel → altStepsB call fuel prev st = true →
      (altRun call fuel prev st).2.2.getLast? = some (altRun call fuel prev st).1 := by
  intro fuel
  induction fuel with
  | zero => intro prev st h; omega
  | succ fuel ih =>
    intro prev st _ h
    rw [altStepsB] at h
    cases hc : call st with
    | error e => rw [hc] at h; simp at h
    | ok v =>
      rw [hc] at h
      cases v with
      | int k => simp at h
      | bool b => simp at h
      | none => simp at h
      | tuple vs =>
        cases vs with
        | nil => simp at h
        | cons r vs2 =>
          cases vs2 with
          | nil => simp at h
          | cons s' vs3 =>
            cases vs3 with
            | cons x xs => simp at h
            | nil =>
              simp only [Bool.and_eq_true] at h
              have htail : altStepsB call fuel r s' = true := h.2
              rcases hAR : altRun call fuel r s' with ⟨fr, fs, rs⟩
              rw [altRun, hc]
              dsimp only
              rw [hAR]
              dsimp only
              cases fuel with
              | zero =>
                have h0 : altRun call 0 r s' = (r, s', []) := rfl
                rw [h0] at hAR
                obtain ⟨h1, h2⟩ := Prod.mk.inj hAR
                obtain ⟨h3, h4⟩ := Prod.mk.inj h2
                rw [← h1, ← h4]
                rfl
              | succ fuel2 =>
                have hlen : rs.length = fuel2 + 1 := by
                  have hl := altRun_length call (fuel2 + 1) r s' htail
                  rw [hAR] at hl
                  exact hl
                have hih := ih r s' (by omega) htail
                rw [hAR] at hih
                cases rs with
                | nil => simp at hlen
                | cons x xs =>
                  rw [List.getLast?_cons_cons]
                  exact hih

/-- Claim C4 (amended): when the selected circuit's outputs keep changing
for 100 successive invocations (in particular whenever the output
alternates indefinitely between two distinct values), the run performs
exactly `MAX_ITERATIONS = 100` invocations — never fewer, never more —
prints one ordinary row per invocation, then stops and returns the last
computed result (the final printed row) together with the final state;
no timeout status exists, and re-running leaves the console intact apart
from the retained state, so the simulator remains usable. -/
theorem c4_timeout_cap {c : Console} {nm : String}
    (hcur : c.current = some nm)
    (halt : altStepsB (circCall c) MAX_ITERATIONS Value.none c.state = true) :
    trigger_circuit c =
      .ok ((altRun (circCall c) MAX_ITERATIONS Value.none c.state).1,
           (altRun (circCall c) MAX_ITERATIONS Value.none c.state).2.1,
           (altRun (circCall c) MAX_ITERATIONS Value.none c.state).2.2,
           MAX_ITERATIONS) ∧
    (altRun (circCall c) MAX_ITERATIONS Value.none c.state).2.2.length = MAX_ITERATIONS ∧
    (altRun (circCall c) MAX_ITERATIONS Value.none c.state).2.2.getLast? =
      some (altRun (circCall c) MAX_ITERATIONS Value.none c.state).1 ∧
    runsource c "" =
      .ok ({ c with state := (altRun (circCall c) MAX_ITERATIONS Value.none c.state).2.1 },
           ((altRun (circCall c) MAX_ITERATIONS Value.none c.state).2.2).map Out.row) := by
  have htr : trigger_circuit c =
      .ok ((altRun (circCall c) MAX_ITERATIONS Value.none c.state).1,
           (altRun (circCall c) MAX_ITERATIONS Value.none c.state).2.1,
           (altRun (circCall c) MAX_ITERATIONS Value.none c.state).2.2,
           MAX_ITERATIONS) := by
    show triggerGo (circCall c) MAX_ITERATIONS Value.none c.state [] 0 = _
    rw [triggerGo_alt (circCall c) MAX_ITERATIONS Value.none c.state [] 0 halt]
    simp
  refine ⟨htr, altRun_length _ _ _ _ halt, altRun_last _ _ _ _ (by norm_num [MAX_ITERATIONS]) halt, ?_⟩
  show runsource c "" = _
  rw [runsource]
  rw [if_neg (by simp), if_neg (by simp), if_pos rfl, hcur]
  rw [htr]

set_option maxRecDepth 4000 in
/-- Claim C4 witness: the oscillator's toggled console satisfies the
alternation hypothesis and therefore runs for exactly 100 invocations. -/
theorem c4_witness :
    oscToggled.current = some "OSC" ∧
    altStepsB (circCall oscToggled) MAX_ITERATIONS Value.none oscToggled.state = true ∧
    trigger_circuit oscToggled =
      .ok ((altRun (circCall oscToggled) MAX_ITERATIONS Value.none oscToggled.state).1,
           (altRun (circCall oscToggled) MAX_ITERATIONS Value.none oscToggled.state).2.1,
           (altRun (circCall oscToggled) MAX_ITERATIONS Value.none oscToggled.state).2.2,
           MAX_ITERATIONS) ∧
    (altRun (circCall oscToggled) MAX_ITERATIONS Value.none oscToggled.state).2.2.length
      = MAX_ITERATIONS := by
  have halt : altStepsB (circCall oscToggled) MAX_ITERATIONS Value.none oscToggled.state
      = true := by rfl
  obtain ⟨h1, h2, _, _⟩ := @c4_timeout_cap oscToggled "OSC" rfl halt
  exact ⟨rfl, halt, h1, h2⟩

/-! ### Console: toggling and unknown selection -/

theorem string_mk_data (s : String) : String.mk s.data = s := by
  cases s
  rfl

theorem aset_aset {α : Type} (l : List (String × α)) (k : String) (a b : α) :
    aset (aset l k a) k b = aset l k b := by
  induction l with
  | nil => simp [aset]
  | cons e t ih =>
    obtain ⟨k', w⟩ := e
    by_cases hk : k' = k
    · simp [aset, hk]
    · simp [aset, hk, ih]

theorem aset_id_of_lookup {α : Type} {l : List (String × α)} {k : String} {v : α}
    (h : alookup l k = some v) : aset l k v = l := by
  induction l with
  | nil => simp [alookup] at h
  | cons e t ih =>
    obtain ⟨k', w⟩ := e
    by_cases hk : k' = k
    · subst hk
      have hv : w = v := by simpa [alookup] using h
      subst hv
      simp [aset]
    · simp only [alookup, if_neg hk] at h
      simp [aset, hk, ih h]

theorem runsource_toggle {c : Console} {src : String} {v : Int}
    (hh : src ≠ "help") (hq : src ≠ "?") (hl : src ≠ "list") (he : src ≠ "")
    (hat : src.data.head? ≠ some '@')
    (hv : alookup c.inputs src = some v)
    (hcur : c.current.isSome = true) :
    runsource c src =
      (match trigger_circuit { c with inputs := aset c.inputs src (1 - v) } with
       | .error e => .error e
       | .ok (_, s', rows, _) =>
          .ok ({ c with inputs := aset c.inputs src (1 - v), state := s' },
               rows.map .row)) := by
  obtain ⟨cur, hcureq⟩ := Option.isSome_iff_exists.mp hcur
  rw [runsource, if_neg (fun hor => hor.elim hh hq), if_neg hl, if_neg he]
  rcases hd : src.data with _ | ⟨ch, rest⟩
  · exfalso
    apply he
    rw [← string_mk_data src, hd]
  · split
    · next r heq =>
      exfalso
      apply hat
      rw [hd]
      rw [(List.cons.inj heq).1]
      rfl
    · rw [hv, hcureq]

/-- C10: selecting a circuit by a name absent from the registry (`@nm` with
`nm` not among the console's locals) reports an unknown-circuit message and
returns the console completely unchanged: same current circuit, same input
vector, same retained state. -/
theorem c10_unknown_select {c : Console} {nm : String}
    (h : alookup c.locals nm = Option.none) :
    runsource c ("@" ++ nm) = .ok (c, [.unknownCircuit nm]) := by
  have hd : ("@" ++ nm).data = '@' :: nm.data := by
    rw [String.data_append]
    rfl
  have hne : ∀ (t : String), t.data.head? ≠ some '@' → ("@" ++ nm) ≠ t := by
    intro t ht he
    apply ht
    rw [← he, hd]
    rfl
  rw [runsource,
      if_neg (fun hor => hor.elim (hne "help" (by decide)) (hne "?" (by decide))),
      if_neg (hne "list" (by decide)), if_neg (hne "" (by decide)), hd]
  split
  · next r heq =>
    have hr : r = nm.data := ((List.cons.inj heq).2).symm
    subst hr
    rw [string_mk_data]
    dsimp only
    rw [h]
  · next hno =>
    exact (hno nm.data rfl).elim

/-- C10 witness: selecting `@XOR` on the AND/NAND console reports
`Unknown circuit: XOR` and leaves the console untouched. -/
theorem c10_witness :
    runsource (consoleFor pAndNand) ("@" ++ "XOR") =
      .ok (consoleFor pAndNand, [.unknownCircuit "XOR"]) :=
  @c10_unknown_select (consoleFor pAndNand) "XOR" rfl

/-- C9: the console's toggle operation on a currently defined input name
maps its stored value `v` to `1 - v` (so a value in `{0, 1}` stays in
`{0, 1}`), and toggling the same input twice in succession restores the
input vector exactly. -/
theorem c9_toggle {c c1 c2 : Console} {src : String} {v : Int}
    {o1 o2 : List Out}
    (hh : src ≠ "help") (hq : src ≠ "?") (hl : src ≠ "list") (he : src ≠ "")
    (hat : src.data.head? ≠ some '@')
    (hv : alookup c.inputs src = some v)
    (hcur : c.current.isSome = true)
    (h1 : runsource c src = .ok (c1, o1))
    (h2 : runsource c1 src = .ok (c2, o2)) :
    alookup c1.inputs src = some (1 - v) ∧
    c2.inputs = c.inputs ∧
    ((v = 0 ∨ v = 1) → (1 - v = 0 ∨ 1 - v = 1)) := by
  rw [runsource_toggle hh hq hl he hat hv hcur] at h1
  rcases htr1 : trigger_circuit { c with inputs := aset c.inputs src (1 - v) } with e | ⟨r1, s1, rows1, n1⟩
  · rw [htr1] at h1
    exact (Except.noConfusion h1)
  · rw [htr1] at h1
    have hpair1 := Except.ok.inj h1
    have hc1 : ({ c with inputs := aset c.inputs src (1 - v), state := s1 } : Console) = c1 :=
      congrArg Prod.fst hpair1
    have hc1in : c1.inputs = aset c.inputs src (1 - v) := by
      rw [← hc1]
    have hcur1 : c1.current.isSome = true := by
      rw [← hc1]
      exact hcur
    have hv1 : alookup c1.inputs src = some (1 - v) := by
      rw [hc1in]
      exact alookup_aset_self c.inputs src (1 - v)
    rw [runsource_toggle hh hq hl he hat hv1 hcur1] at h2
    rcases htr2 : trigger_circuit { c1 with inputs := aset c1.inputs src (1 - (1 - v)) } with e | ⟨r2, s2, rows2, n2⟩
    · rw [htr2] at h2
      exact (Except.noConfusion h2)
    · rw [htr2] at h2
      have hpair2 := Except.ok.inj h2
      have hc2 : ({ c1 with inputs := aset c1.inputs src (1 - (1 - v)), state := s2 } : Console) = c2 :=
        congrArg Prod.fst hpair2
      have hc2in : c2.inputs = aset c1.inputs src (1 - (1 - v)) := by
        rw [← hc2]
      refine ⟨hv1, ?_, by omega⟩
      have hvv : (1 : Int) - (1 - v) = v := by ring
      rw [hc2in, hc1in, hvv, aset_aset]
      exact aset_id_of_lookup hv

/-- C9 witness: on the CTR console, toggling input `a` (value 0) yields
value 1, and toggling it again restores the input vector `[("a", 0)]`. -/
theorem c9_witness :
    alookup cCtrSel1.inputs "a" = some (1 - 0) ∧
    cCtrSel2.inputs = cCtrSel.inputs ∧
    (((0 : Int) = 0 ∨ (0 : Int) = 1) → ((1 : Int) - 0 = 0 ∨ (1 : Int) - 0 = 1)) :=
  @c9_toggle cCtrSel cCtrSel1 cCtrSel2 "a" 0 [.row (.int 0)] [.row (.int 0)]
    (by decide) (by decide) (by decide) (by decide) (by decide) rfl rfl rfl rfl

mutual
theorem collect_deps_eq (args : List String) : (e : Expr) → (collectExpr args e).2 = callNames e
  | .name _ => rfl
  | .const _ => rfl
  | .tuple es => collect_list_deps_eq args es
  | .call f es => congrArg (List.cons f) (collect_list_deps_eq args es)
  | .unaryNot e => collect_deps_eq args e
  | .boolAnd l r => by
    show (collectExpr args l).2 ++ (collectExpr args r).2 = callNames l ++ callNames r
    rw [collect_deps_eq args l, collect_deps_eq args r]
  | .binSub l r => by
    show (collectExpr args l).2 ++ (collectExpr args r).2 = callNames l ++ callNames r
    rw [collect_deps_eq args l, collect_deps_eq args r]
  | .ifExp t b o => by
    show (collectExpr args t).2 ++ (collectExpr args b).2 ++ (collectExpr args o).2 =
      callNames t ++ callNames b ++ callNames o
    rw [collect_deps_eq args t, collect_deps_eq args b, collect_deps_eq args o]

theorem collect_list_deps_eq (args : List String) :
    (es : List Expr) → (collectExprs args es).2 = callNamesList es
  | [] => rfl
  | e :: es => by
    show (collectExpr args e).2 ++ (collectExprs args es).2 = callNames e ++ callNamesList es
    rw [collect_deps_eq args e, collect_list_deps_eq args es]
end

theorem collect_stmt_deps_eq (args : List String) (s : Stmt) :
    (collectStmt args s).2 = callNamesStmt s := by
  cases s with
  | assign t e => exact collect_deps_eq args e
  | exprStmt e => exact collect_deps_eq args e
  | ret e => exact collect_deps_eq args e

theorem collect_stmts_deps_eq (args : List String) :
    (ss : List Stmt) → (collectStmts args ss).2 = callNamesStmts ss
  | [] => rfl
  | s :: ss => by
    show (collectStmt args s).2 ++ (collectStmts args ss).2 =
      callNamesStmt s ++ callNamesStmts ss
    rw [collect_stmt_deps_eq, collect_stmts_deps_eq args ss]

theorem track_deps (fd : FunctionDef) :
    (track_FunctionDef fd).deps = callNamesStmts fd.body := by
  show (collectStmts fd.args fd.body).2 = _
  exact collect_stmts_deps_eq fd.args fd.body

theorem track_args (fd : FunctionDef) : (track_FunctionDef fd).args = fd.args := rfl

mutual
theorem evalExpr_congr (c1 c2 : String → List Value → Except PyErr Value) (env : Env) :
    (e : Expr) → (∀ g ∈ callNames e, ∀ vs, c1 g vs = c2 g vs) →
    evalExpr c1 env e = evalExpr c2 env e
  | .name _, _ => rfl
  | .const _, _ => rfl
  | .tuple es, h => by
    rw [evalExpr, evalExpr, evalExprs_congr c1 c2 env es h]
  | .call f es, h => by
    rw [evalExpr, evalExpr,
        evalExprs_congr c1 c2 env es (fun g hg vs => h g (List.mem_cons_of_mem f hg) vs)]
    cases hv : evalExprs c2 env es with
    | error e => rfl
    | ok vs => exact h f (List.mem_cons_self f _) vs
  | .unaryNot e, h => by
    rw [evalExpr, evalExpr, evalExpr_congr c1 c2 env e h]
  | .boolAnd l r, h => by
    rw [evalExpr, evalExpr,
        evalExpr_congr c1 c2 env l (fun g hg vs => h g (List.mem_append_left _ hg) vs)]
    cases hv : evalExpr c2 env l with
    | error e => rfl
    | ok v =>
      dsimp only
      by_cases ht : truthy v
      · rw [if_pos ht, if_pos ht,
            evalExpr_congr c1 c2 env r (fun g hg vs => h g (List.mem_append_right _ hg) vs)]
      · rw [if_neg ht, if_neg ht]
  | .binSub l r, h => by
    rw [evalExpr, evalExpr,
        evalExpr_congr c1 c2 env l (fun g hg vs => h g (List.mem_append_left _ hg) vs),
        evalExpr_congr c1 c2 env r (fun g hg vs => h g (List.mem_append_right _ hg) vs)]
  | .ifExp t b o, h => by
    have hht : ∀ g ∈ callNames t, ∀ vs, c1 g vs = c2 g vs := fun g hg vs =>
      h g (List.mem_append_left _ (List.mem_append_left _ hg)) vs
    have hhb : ∀ g ∈ callNames b, ∀ vs, c1 g vs = c2 g vs := fun g hg vs =>
      h g (List.mem_append_left _ (List.mem_append_right _ hg)) vs
    have hho : ∀ g ∈ callNames o, ∀ vs, c1 g vs = c2 g vs := fun g hg vs =>
      h g (List.mem_append_right _ hg) vs
    rw [evalExpr, evalExpr, evalExpr_congr c1 c2 env t hht]
    cases hv : evalExpr c2 env t with
    | error e => rfl
    | ok v =>
      dsimp only
      by_cases hc : truthy v
      · rw [if_pos hc, if_pos hc, evalExpr_congr c1 c2 env b hhb]
      · rw [if_neg hc, if_neg hc, evalExpr_congr c1 c2 env o hho]

theorem evalExprs_congr (c1 c2 : String → List Value → Except PyErr Value) (env : Env) :
    (es : List Expr) → (∀ g ∈ callNamesList es, ∀ vs, c1 g vs = c2 g vs) →
    evalExprs c1 env es = evalExprs c2 env es
  | [], _ => rfl
  | e :: es, h => by
    rw [evalExprs, evalExprs,
        evalExpr_congr c1 c2 env e (fun g hg vs => h g (List.mem_append_left _ hg) vs),
        evalExprs_congr c1 c2 env es (fun g hg vs => h g (List.mem_append_right _ hg) vs)]
end

theorem execStmt_congr (c1 c2 : String → List Value → Except PyErr Value) (env : Env)
    (s : Stmt) (h : ∀ g ∈ callNamesStmt s, ∀ vs, c1 g vs = c2 g vs) :
    execStmt c1 env s = execStmt c2 env s := by
  cases s with
  | assign t e => rw [execStmt, execStmt, evalExpr_congr c1 c2 env e h]
  | exprStmt e => rw [execStmt, execStmt, evalExpr_congr c1 c2 env e h]
  | ret e => rw [execStmt, execStmt, evalExpr_congr c1 c2 env e h]

theorem execStmts_congr (c1 c2 : String → List Value → Except PyErr Value) :
    ∀ (ss : List Stmt) (env : Env),
      (∀ g ∈ callNamesStmts ss, ∀ vs, c1 g vs = c2 g vs) →
      execStmts c1 env ss = execStmts c2 env ss := by
  intro ss
  induction ss with
  | nil => intro env h; rfl
  | cons s ss ih =>
    intro env h
    rw [execStmts, execStmts,
        execStmt_congr c1 c2 env s (fun g hg vs => h g (List.mem_append_left _ hg) vs)]
    cases hv : execStmt c2 env s with
    | error e => rfl
    | ok p =>
      rcases p with ⟨env', ov⟩
      cases ov with
      | none => exact ih env' (fun g hg vs => h g (List.mem_append_right _ hg) vs)
      | some v => rfl

theorem execStmts_append (c : String → List Value → Except PyErr Value) :
    ∀ (ss ts : List Stmt) (env : Env),
      execStmts c env (ss ++ ts) =
        match execStmts c env ss with
        | .error e => .error e
        | .ok (env', some v) => .ok (env', some v)
        | .ok (env', Option.none) => execStmts c env' ts := by
  intro ss
  induction ss with
  | nil => intro ts env; rfl
  | cons s ss ih =>
    intro ts env
    show execStmts c env (s :: (ss ++ ts)) = _
    rw [execStmts, execStmts]
    cases hv : execStmt c env s with
    | error e => rfl
    | ok p =>
      rcases p with ⟨env', ov⟩
      cases ov with
      | none => exact ih ts env'
      | some v => rfl

theorem execStmt_noRet (c : String → List Value → Except PyErr Value) (env : Env)
    (s : Stmt) (hs : s.isRet = false) {env' : Env} {ov : Option Value}
    (h : execStmt c env s = .ok (env', ov)) : ov = Option.none := by
  cases s with
  | assign t e =>
    rw [execStmt] at h
    cases hv : evalExpr c env e with
    | error er => rw [hv] at h; exact (Except.noConfusion h)
    | ok v =>
      rw [hv] at h
      dsimp only at h
      cases hb : bindTgt env t v with
      | error er => rw [hb] at h; exact (Except.noConfusion h)
      | ok env2 =>
        rw [hb] at h
        dsimp only at h
        exact ((Prod.mk.inj (Except.ok.inj h)).2).symm
  | exprStmt e =>
    rw [execStmt] at h
    cases hv : evalExpr c env e with
    | error er => rw [hv] at h; exact (Except.noConfusion h)
    | ok v =>
      rw [hv] at h
      dsimp only at h
      exact ((Prod.mk.inj (Except.ok.inj h)).2).symm
  | ret e => exact absurd hs (by rw [Stmt.isRet]; exact fun hc => Bool.noConfusion hc)

theorem execStmts_noRet (c : String → List Value → Except PyErr Value) :
    ∀ (ss : List Stmt) (env : Env) (env' : Env) (ov : Option Value),
      (∀ s ∈ ss, s.isRet = false) →
      execStmts c env ss = .ok (env', ov) → ov = Option.none := by
  intro ss
  induction ss with
  | nil =>
    intro env env' ov _ h
    exact ((Prod.mk.inj (Except.ok.inj h)).2).symm
  | cons s ss ih =>
    intro env env' ov hns h
    rw [execStmts] at h
    cases hv : execStmt c env s with
    | error e => rw [hv] at h; exact (Except.noConfusion h)
    | ok p =>
      rcases p with ⟨env1, ov1⟩
      have hov1 : ov1 = Option.none := execStmt_noRet c env s (hns s (List.mem_cons_self s ss)) hv
      subst hov1
      rw [hv] at h
      dsimp only at h
      exact ih env1 env' ov (fun t ht => hns t (List.mem_cons_of_mem s ht)) h

theorem rw_Body_nil {parts : Parts} :
    ∀ (ss : List Stmt) (r : List Stmt × List String),
      rw_Body parts ss [] = .ok r → r = (ss, []) := by
  intro ss
  induction ss with
  | nil =>
    intro r h
    exact (Except.ok.inj h).symm
  | cons s ss ih =>
    intro r h
    rw [rw_Body] at h
    cases hv : visit_Assign parts [] s with
    | error e => rw [hv] at h; exact (Except.noConfusion h)
    | ok p =>
      rcases p with ⟨s', calls'⟩
      have hsp : s' = s ∧ calls' = [] := by
        cases s with
        | assign tgt e =>
          cases e with
          | call f argsE =>
            rw [visit_Assign] at hv
            cases hl : alookup parts f with
            | none => rw [hl] at hv; exact (Except.noConfusion hv)
            | some fp =>
              rw [hl] at hv
              dsimp only at hv
              by_cases hst : (!fp.state.isEmpty) = true
              · rw [if_pos hst] at hv
                exact (Except.noConfusion hv)
              · rw [if_neg hst] at hv
                have := Except.ok.inj hv
                exact ⟨((Prod.mk.inj this).1).symm, ((Prod.mk.inj this).2).symm⟩
          | name i => exact ⟨((Prod.mk.inj (Except.ok.inj hv)).1).symm, ((Prod.mk.inj (Except.ok.inj hv)).2).symm⟩
          | const v => exact ⟨((Prod.mk.inj (Except.ok.inj hv)).1).symm, ((Prod.mk.inj (Except.ok.inj hv)).2).symm⟩
          | tuple es => exact ⟨((Prod.mk.inj (Except.ok.inj hv)).1).symm, ((Prod.mk.inj (Except.ok.inj hv)).2).symm⟩
          | unaryNot e => exact ⟨((Prod.mk.inj (Except.ok.inj hv)).1).symm, ((Prod.mk.inj (Except.ok.inj hv)).2).symm⟩
          | boolAnd l r2 => exact ⟨((Prod.mk.inj (Except.ok.inj hv)).1).symm, ((Prod.mk.inj (Except.ok.inj hv)).2).symm⟩
          | binSub l r2 => exact ⟨((Prod.mk.inj (Except.ok.inj hv)).1).symm, ((Prod.mk.inj (Except.ok.inj hv)).2).symm⟩
          | ifExp t b o => exact ⟨((Prod.mk.inj (Except.ok.inj hv)).1).symm, ((Prod.mk.inj (Except.ok.inj hv)).2).symm⟩
        | exprStmt e => exact ⟨((Prod.mk.inj (Except.ok.inj hv)).1).symm, ((Prod.mk.inj (Except.ok.inj hv)).2).symm⟩
        | ret e => exact ⟨((Prod.mk.inj (Except.ok.inj hv)).1).symm, ((Prod.mk.inj (Except.ok.inj hv)).2).symm⟩
      rcases hsp with ⟨hs1, hc1⟩
      subst hs1
      subst hc1
      rw [hv] at h
      dsimp only at h
      cases hb : rw_Body parts ss [] with
      | error e => rw [hb] at h; exact (Except.noConfusion h)
      | ok q =>
        rcases q with ⟨ss', calls''⟩
        have hq := ih (ss', calls'') hb
        rw [hb] at h
        dsimp only at h
        have h1 := (Prod.mk.inj hq).1
        have h2 := (Prod.mk.inj hq).2
        subst h1
        subst h2
        exact (Except.ok.inj h).symm

theorem rw_name {parts : Parts} {fd fd' : FunctionDef}
    (h : rw_FunctionDef parts fd = .ok fd') : fd'.name = fd.name := by
  rw [rw_FunctionDef] at h
  cases hl : alookup parts fd.name with
  | none => rw [hl] at h; exact (Except.noConfusion h)
  | some p =>
    rw [hl] at h
    dsimp only at h
    cases hb : rw_Body parts fd.body p.dep_state with
    | error e => rw [hb] at h; exact (Except.noConfusion h)
    | ok q =>
      rcases q with ⟨body', rest⟩
      rw [hb] at h
      dsimp only at h
      by_cases hst : p.stateful = true
      · rw [if_pos hst] at h
        dsimp only at h
        cases hr : fd.returns with
        | none =>
          rw [hr] at h
          dsimp only at h
          rw [← Except.ok.inj h]
        | some rv =>
          rw [hr] at h
          dsimp only at h
          rw [← Except.ok.inj h]
      · rw [if_neg hst] at h
        dsimp only at h
        cases hr : fd.returns with
        | none =>
          rw [hr] at h
          dsimp only at h
          rw [← Except.ok.inj h]
        | some rv =>
          rw [hr] at h
          dsimp only at h
          rw [← Except.ok.inj h]

theorem lookup_three {parts : Parts} (Q : FunctionDef → Prop) :
    ∀ (l l' : List FunctionDef) (m1 : Registry) (m2 : Parts) (m3 : Registry) (nm : String),
      l.mapM (rw_FunctionDef parts) = .ok l' →
      (∀ fd ∈ l, Q fd) →
      ((alookup m1 nm = Option.none ∧ alookup m2 nm = Option.none ∧
        alookup m3 nm = Option.none) ∨
       (∃ fd fd', Q fd ∧ fd.name = nm ∧ rw_FunctionDef parts fd = .ok fd' ∧
         alookup m1 nm = some fd ∧
         alookup m2 nm = some (track_FunctionDef fd) ∧
         alookup m3 nm = some fd')) →
      ((alookup (l.foldl (fun m fd => aset m fd.name fd) m1) nm = Option.none ∧
        alookup (l.foldl (fun ps fd => aset ps fd.name (track_FunctionDef fd)) m2) nm =
          Option.none ∧
        alookup (l'.foldl (fun m fd => aset m fd.name fd) m3) nm = Option.none) ∨
       (∃ fd fd', Q fd ∧ fd.name = nm ∧ rw_FunctionDef parts fd = .ok fd' ∧
         alookup (l.foldl (fun m fd => aset m fd.name fd) m1) nm = some fd ∧
         alookup (l.foldl (fun ps fd => aset ps fd.name (track_FunctionDef fd)) m2) nm =
           some (track_FunctionDef fd) ∧
         alookup (l'.foldl (fun m fd => aset m fd.name fd) m3) nm = some fd')) := by
  intro l
  induction l with
  | nil =>
    intro l' m1 m2 m3 nm hmap _ hacc
    have hl' : l' = [] := by
      rw [List.mapM_nil] at hmap
      exact (Except.ok.inj hmap).symm
    subst hl'
    exact hacc
  | cons fd rest ih =>
    intro l' m1 m2 m3 nm hmap hQ hacc
    rw [List.mapM_cons] at hmap
    cases hf : rw_FunctionDef parts fd with
    | error e =>
      rw [hf] at hmap
      exact (Except.noConfusion (show (Except.error e : Except CErr (List FunctionDef)) = .ok l' from hmap))
    | ok fd1 =>
      rw [hf] at hmap
      cases hr : rest.mapM (rw_FunctionDef parts) with
      | error e =>
        rw [hr] at hmap
        exact (Except.noConfusion (show (Except.error e : Except CErr (List FunctionDef)) = .ok l' from hmap))
      | ok rest' =>
        rw [hr] at hmap
        have hl' : l' = fd1 :: rest' :=
          (Except.ok.inj (show (Except.ok (fd1 :: rest') : Except CErr (List FunctionDef)) = .ok l' from hmap)).symm
        subst hl'
        have hnm1 : fd1.name = fd.name := rw_name hf
        refine ih rest' (aset m1 fd.name fd) (aset m2 fd.name (track_FunctionDef fd))
          (aset m3 fd1.name fd1) nm hr (fun g hg => hQ g (List.mem_cons_of_mem fd hg)) ?_
        by_cases heq : fd.name = nm
        · right
      
          refine ⟨fd, fd1, hQ fd (List.mem_cons_self fd rest), heq, hf, ?_, ?_, ?_⟩
          · rw [← heq]
            exact alookup_aset_self m1 fd.name fd
          · rw [← heq]
            exact alookup_aset_self m2 fd.name (track_FunctionDef fd)
          · rw [← heq, ← hnm1]
            exact alookup_aset_self m3 fd1.name fd1
        · have e1 : alookup (aset m1 fd.name fd) nm = alookup m1 nm :=
            alookup_aset_ne m1 fd heq
          have e2 : alookup (aset m2 fd.name (track_FunctionDef fd)) nm = alookup m2 nm :=
            alookup_aset_ne m2 (track_FunctionDef fd) heq
          have e3 : alookup (aset m3 fd1.name fd1) nm = alookup m3 nm := by
            rw [hnm1]
            exact alookup_aset_ne m3 fd1 heq
          rcases hacc with ⟨h1, h2, h3⟩ | ⟨g, g', hg1, hg2, hg3, hg4, hg5, hg6⟩
          · exact Or.inl ⟨by rw [e1, h1], by rw [e2, h2], by rw [e3, h3]⟩
          · exact Or.inr ⟨g, g', hg1, hg2, hg3, by rw [e1, hg4], by rw [e2, hg5], by rw [e3, hg6]⟩

theorem nonstateful_pack
    {prog prog' : List FunctionDef} {parts' : Parts} {order : List String}
    (hok : AOK (track_Program prog) order)
    (hana : analyze (track_Program prog) order = .ok parts')
    (hmap : prog.mapM (rw_FunctionDef parts') = .ok prog')
    (hwf : ∀ fd ∈ prog, (∀ s ∈ fd.body, s.isRet = false) ∧
      fd.returns.isSome = true ∧ callNames (fd.returns.getD (.const .none)) = []) :
    ∀ nm p, alookup parts' nm = some p → p.stateful = false →
      ∃ fd fd' ann,
        alookup (regOf prog) nm = some fd ∧
        alookup (regOf prog') nm = some fd' ∧
        fd.returns = some ann ∧ callNames ann = [] ∧
        (∀ s ∈ fd.body, s.isRet = false) ∧
        fd'.args = fd.args ∧ fd'.defaults = fd.defaults ∧ fd'.returns = Option.none ∧
        fd'.body = fd.body ++ [Stmt.ret ann] ∧
        (∀ g ∈ callNamesStmts fd.body, statefulAt parts' g = false) := by
  obtain ⟨ps2, hga, hkeys, hnodupS, hmain⟩ := analyze_master hok
  rw [hana] at hga
  have hps2 : parts' = ps2 := Except.ok.inj hga
  subst hps2
  have triN : ∀ nm2,
      (alookup (regOf prog) nm2 = Option.none ∧
       alookup (track_Program prog) nm2 = Option.none ∧
       alookup (regOf prog') nm2 = Option.none) ∨
      (∃ fd fd', fd ∈ prog ∧ fd.name = nm2 ∧ rw_FunctionDef parts' fd = .ok fd' ∧
        alookup (regOf prog) nm2 = some fd ∧
        alookup (track_Program prog) nm2 = some (track_FunctionDef fd) ∧
        alookup (regOf prog') nm2 = some fd') :=
    fun nm2 => lookup_three (fun fd => fd ∈ prog) prog prog' [] [] [] nm2 hmap
      (fun g hg => hg) (Or.inl ⟨rfl, rfl, rfl⟩)
  intro nm p hp hpst
  obtain ⟨p0, hp0⟩ := lookup_back hkeys hp
  rcases triN nm with ⟨h1, h2, h3⟩ | ⟨fd, fd', hfdmem, hfdnm, hfrw, hr1, hr2, hr3⟩
  · exact (Option.noConfusion (h2.symm.trans hp0))
  · obtain ⟨p1, hp1, hargs0, hstate0, hdeps0, hret0, hsf0, b, hds0⟩ :=
      hmain nm (track_FunctionDef fd) hr2
    have hp1p : p = p1 := Option.some.inj (hp.symm.trans hp1)
    subst hp1p
    have hAB : (!(track_FunctionDef fd).state.isEmpty ||
        (track_FunctionDef fd).deps.any (statefulAt parts')) = false := by
      rw [← hsf0]
      exact hpst
    have hany : (track_FunctionDef fd).deps.any (statefulAt parts') = false := by
      cases hx : (track_FunctionDef fd).deps.any (statefulAt parts') with
      | false => rfl
      | true =>
        rw [hx, Bool.or_true] at hAB
        exact (Bool.noConfusion hAB)
    have hgdeps : ∀ g ∈ callNamesStmts fd.body, statefulAt parts' g = false := by
      intro g hg
      have hmemd : g ∈ (track_FunctionDef fd).deps := by
        rw [track_deps fd]
        exact hg
      cases hx : statefulAt parts' g with
      | false => rfl
      | true =>
        exact absurd hx (by simpa using List.any_eq_false.mp hany g hmemd)
    have hfilter : (track_FunctionDef fd).deps.filter (statefulAt parts') = [] := by
      rw [List.filter_eq_nil_iff]
      intro a ha
      have := hgdeps a (by rw [← track_deps fd]; exact ha)
      simp [this]
    have hdsnil : p.dep_state = [] := by
      rw [hfilter] at hds0
      exact hds0
    obtain ⟨hnoret, hannS, hanncalls⟩ := hwf fd hfdmem
    obtain ⟨ann, hann⟩ := Option.isSome_iff_exists.mp hannS
    have hanncalls' : callNames ann = [] := by
      rw [hann] at hanncalls
      exact hanncalls
    rw [rw_FunctionDef, hfdnm, hp] at hfrw
    dsimp only at hfrw
    rw [hdsnil] at hfrw
    cases hB : rw_Body parts' fd.body [] with
    | error e =>
      rw [hB] at hfrw
      exact (Except.noConfusion hfrw)
    | ok q =>
      have hq := rw_Body_nil fd.body q hB
      rw [hB] at hfrw
      dsimp only at hfrw
      rw [hq] at hfrw
      dsimp only at hfrw
      rw [hpst] at hfrw
      rw [if_neg (fun hcc => Bool.noConfusion hcc)] at hfrw
      dsimp only at hfrw
      rw [hann] at hfrw
      dsimp only at hfrw
      rw [if_neg (fun hcc => Bool.noConfusion hcc)] at hfrw
      refine ⟨fd, fd', ann, hr1, hr3, hann, hanncalls', hnoret, ?_, ?_, ?_, ?_, hgdeps⟩
      · rw [← Except.ok.inj hfrw]
      · rw [← Except.ok.inj hfrw]
      · rw [← Except.ok.inj hfrw]
      · rw [← Except.ok.inj hfrw]

/-- C8: for every definition the analysis leaves non-stateful, compiling
is a no-op on the interface — the rewritten definition keeps exactly the
original parameter list and defaults (no trailing state parameter), its
body is the original body followed only by the plain `return` of the
declared outputs (no state value is appended to the result) — and the
compiled registry computes, at every fuel and every input vector, exactly
the value the un-rewritten definition denotes under the reference
semantics. -/
theorem c8_nonstateful_refinement
    {prog prog' : List FunctionDef} {parts' : Parts} {order : List String}
    (horder : staticOrder (edgesOf prog) = .ok order)
    (hok : AOK (track_Program prog) order)
    (hps : parse_script prog = .ok (prog', parts'))
    (hwf : ∀ fd ∈ prog, (∀ s ∈ fd.body, s.isRet = false) ∧
      fd.returns.isSome = true ∧ callNames (fd.returns.getD (.const .none)) = []) :
    ∀ nm fd p, alookup (regOf prog) nm = some fd →
      alookup parts' nm = some p → p.stateful = false →
      (∃ ann fd', fd.returns = some ann ∧
        alookup (regOf prog') nm = some fd' ∧
        fd'.args = fd.args ∧ fd'.defaults = fd.defaults ∧
        fd'.returns = Option.none ∧
        fd'.body = fd.body ++ [Stmt.ret ann]) ∧
      ∀ fuel vs, evalCall (regOf prog') fuel nm vs = srcCall prog fuel nm vs := by
  rw [parse_script, horder] at hps
  dsimp only at hps
  cases hA : analyze (track_Program prog) order with
  | error e => rw [hA] at hps; exact (Except.noConfusion hps)
  | ok ps1 =>
    rw [hA] at hps
    dsimp only at hps
    cases hM : prog.mapM (rw_FunctionDef ps1) with
    | error e => rw [hM] at hps; exact (Except.noConfusion hps)
    | ok prog2 =>
      rw [hM] at hps
      dsimp only at hps
      have hpair := Except.ok.inj hps
      have hprog2 : prog' = prog2 := ((Prod.mk.inj hpair).1).symm
      have hps1 : parts' = ps1 := ((Prod.mk.inj hpair).2).symm
      subst hprog2
      subst hps1
      have syn := nonstateful_pack hok hA hM hwf
      obtain ⟨ps2, hga, hkeys, _, _⟩ := analyze_master hok
      rw [hA] at hga
      have hps2 : parts' = ps2 := Except.ok.inj hga
      subst hps2
      have triN : ∀ nm2,
          (alookup (regOf prog) nm2 = Option.none ∧
           alookup (track_Program prog) nm2 = Option.none ∧
           alookup (regOf prog') nm2 = Option.none) ∨
          (∃ fd fd', fd ∈ prog ∧ fd.name = nm2 ∧ rw_FunctionDef parts' fd = .ok fd' ∧
            alookup (regOf prog) nm2 = some fd ∧
            alookup (track_Program prog) nm2 = some (track_FunctionDef fd) ∧
            alookup (regOf prog') nm2 = some fd') :=
        fun nm2 => lookup_three (fun fd => fd ∈ prog) prog prog' [] [] [] nm2 hM
          (fun g hg => hg) (Or.inl ⟨rfl, rfl, rfl⟩)
      have hsem : ∀ fuel nm p, alookup parts' nm = some p → p.stateful = false →
          ∀ vs, evalCall (regOf prog') fuel nm vs = srcCall prog fuel nm vs := by
        intro fuel
        induction fuel with
        | zero => intro nm p _ _ vs; rfl
        | succ fuel ih =>
          intro nm p hp hpst vs
          obtain ⟨fd, fd', ann, hr1, hr3, hann, hanncalls, hnoret, hargs, hdefs,
            hrets, hbody, hgdeps⟩ := syn nm p hp hpst
          rw [evalCall, srcCall, hr1, hr3]
          dsimp only
          rw [hargs, hdefs, hbody, hann]
          cases hbp : bindParams fd.args fd.defaults vs with
          | error e => rfl
          | ok env =>
            dsimp only
            have hagree : ∀ g ∈ callNamesStmts fd.body, ∀ vs2 : List Value,
                evalCall (regOf prog') fuel g vs2 = srcCall prog fuel g vs2 := by
              intro g hg vs2
              have hgst : statefulAt parts' g = false := hgdeps g hg
              cases hpg : alookup parts' g with
              | none =>
                rcases triN g with ⟨h1, h2, h3⟩ | ⟨gfd, gfd', _, _, _, hg1, hg2, hg3⟩
                · cases fuel with
                  | zero => rfl
                  | succ fuel2 =>
                    rw [evalCall, srcCall, h1, h3]
                · exfalso
                  have hS : (alookup parts' g).isSome = true := by
                    rw [alookup_isSome_iff]
                    show g ∈ partsKeys parts'
                    rw [hkeys]
                    exact alookup_isSome_iff.mp (by rw [hg2]; rfl)
                  rw [hpg] at hS
                  exact (Bool.noConfusion hS)
              | some gp =>
                have hgpst : gp.stateful = false := by
                  rw [statefulAt, hpg] at hgst
                  exact hgst
                exact ih g gp hpg hgpst vs2
            have hcong : execStmts (evalCall (regOf prog') fuel) env fd.body =
                execStmts (srcCall prog fuel) env fd.body :=
              execStmts_congr _ _ fd.body env hagree
            rw [execStmts_append, hcong]
            cases hB : execStmts (srcCall prog fuel) env fd.body with
            | error e => rfl
            | ok pr =>
              rcases pr with ⟨env2, ov⟩
              have hov : ov = Option.none := execStmts_noRet _ fd.body env env2 ov hnoret hB
              subst hov
              dsimp only
              rw [execStmts, execStmt]
              have hanneq : evalExpr (evalCall (regOf prog') fuel) env2 ann =
                  evalExpr (srcCall prog fuel) env2 ann :=
                evalExpr_congr _ _ env2 ann
                  (fun g hg => absurd (hanncalls ▸ hg) (List.not_mem_nil g))
              rw [hanneq]
              cases hEA : evalExpr (srcCall prog fuel) env2 ann with
              | error e => rfl
              | ok v => rfl
      intro nm fd p hr hp hpst
      obtain ⟨fd0, fd', ann, hr1, hr3, hann, _, _, hargs, hdefs, hrets, hbody, _⟩ :=
        syn nm p hp hpst
      have hfd0 : fd0 = fd := Option.some.inj (hr1.symm.trans hr)
      subst hfd0
      exact ⟨⟨ann, fd', hann, hr3, hargs, hdefs, hrets, hbody⟩,
        fun fuel vs => hsem fuel nm p hp hpst vs⟩

/-- C8 witness: in the AND/NAND program both definitions are
non-stateful; the compiled NAND keeps its two parameters and plain
return, and at fuel 5 computes on inputs `(1, 0)` exactly what the
un-rewritten NAND denotes. -/
theorem c8_witness :
    (∃ ann fd', fdNAND.returns = some ann ∧
      alookup (regOf andNandCompiled) "NAND" = some fd' ∧
      fd'.args = fdNAND.args ∧ fd'.defaults = fdNAND.defaults ∧
      fd'.returns = Option.none ∧
      fd'.body = fdNAND.body ++ [Stmt.ret ann]) ∧
    evalCall (regOf andNandCompiled) 5 "NAND" [.int 1, .int 0] =
      srcCall pAndNand 5 "NAND" [.int 1, .int 0] :=
  have h := @c8_nonstateful_refinement pAndNand andNandCompiled anParts
    ["AND", "NAND"] rfl ⟨by decide, by decide, by decide, by decide, by decide⟩
    rfl (by decide) "NAND" fdNAND
    { args := ["a", "b"], state := [], deps := ["AND"], dep_state := []
      returns := ["y"], stateful := false }
    rfl rfl rfl
  ⟨h.1, h.2 5 [.int 1, .int 0]⟩
